import Mathlib

/-!
# CryptoLab1: primality testing and modular exponentiation

A shallow embedding of `main.cpp`.  `long long` and `int` values are exact integers (`Int`);
the C++ operators `%` and `/` truncate towards zero and are `Int.tmod` and `Int.tdiv`.
Every random draw is an explicit argument: `draw i` is the witness that the `i`-th call of
`millerTest` obtains from its `uniform_int_distribution`, `rand i` is the `i`-th value returned
by `rand()`, and `sample i` is the `i`-th value drawn by `generate_prime`.
A loop that the source does not bound carries a fuel counter and yields `none` when the
counter is spent.  The definitions whose name ends in `64` compute the products of `mod_pow`
in wrap-around 64-bit arithmetic instead.
-/

namespace CryptoLab1

/-! ## ModularArithmetic -/

/-- The loop `while (exponent > 0)` of `mod_pow`, on the state `(result, base, exponent)`. The
first argument bounds the number of iterations; `mod_pow` passes `exponent`, and
`mod_pow_loop_fuel` shows that the bound is never reached. -/
def mod_pow_loop : Nat → Int → Int → Int → Int → Int
  | 0, result, _, _, _ => result
  | fuel + 1, result, base, exponent, modulus =>
    if exponent > 0 then
      let result1 := if exponent.tmod 2 == 1 then (result * base).tmod modulus else result
      mod_pow_loop fuel result1 ((base * base).tmod modulus) (exponent.tdiv 2) modulus
    else result

/-- Source function `long long mod_pow(long long base, long long exponent, long long modulus)`. -/
def mod_pow (base exponent modulus : Int) : Int :=
  mod_pow_loop exponent.toNat 1 (base.tmod modulus) exponent modulus

/-! ## MillerRabinTester -/

/-- The loop `while (d != n - 1)` of `millerTest` on the state `(x, d)`; `none` when the fuel is
spent before the loop is left. -/
def millerTest_loop : Nat → Int → Int → Int → Option Bool
  | 0, _, _, _ => none
  | fuel + 1, x, d, n =>
    if d != n - 1 then
      let x1 := (x * x).tmod n
      let d1 := d * 2
      if x1 == 1 then some false
      else if x1 == n - 1 then some true
      else millerTest_loop fuel x1 d1 n
    else some false

/-- Source function `bool millerTest(long long d, long long n)`, with the drawn witness `a` as
an argument. -/
def millerTest (fuel : Nat) (a d n : Int) : Option Bool :=
  let x := mod_pow a d n
  if x == 1 || x == n - 1 then some true
  else millerTest_loop fuel x d n

/-- The loop `while (d % 2 == 0) d /= 2;` of `isPrimeRM`. -/
def isPrimeRM_halve : Nat → Int → Option Int
  | 0, _ => none
  | fuel + 1, d => if d.tmod 2 == 0 then isPrimeRM_halve fuel (d.tdiv 2) else some d

/-- The loop `for (int i = 0; i < k; i++) if (!millerTest(d, n)) return false;` of `isPrimeRM`:
the first argument counts the trials that remain, the second is the index `i`. -/
def isPrimeRM_trials (d n : Int) (draw : Nat → Int) : Nat → Nat → Option Bool
  | 0, _ => some true
  | remaining + 1, i =>
    match millerTest n.toNat (draw i) d n with
    | none => none
    | some false => some false
    | some true => isPrimeRM_trials d n draw remaining (i + 1)

/-- Source function `bool isPrimeRM(long long n, int k)`. -/
def isPrimeRM (n k : Int) (draw : Nat → Int) : Option Bool :=
  if n ≤ 1 || n == 4 then some false
  else if n ≤ 3 then some true
  else
    match isPrimeRM_halve (n - 1).toNat (n - 1) with
    | none => none
    | some d => isPrimeRM_trials d n draw k.toNat 0

/-! ## Factorizer -/

/-- The loop `while (n % i == 0) { factors.push_back(i); n /= i; }` of `prime_factors`, on the
state `(factors, n)`. -/
def prime_factors_strip (i : Int) : Nat → List Int → Int → Option (List Int × Int)
  | 0, _, _ => none
  | fuel + 1, factors, n =>
    if n.tmod i == 0 then prime_factors_strip i fuel (factors ++ [i]) (n.tdiv i)
    else some (factors, n)

/-- The loop `for (long long i = 3; i <= sqrt(n); i += 2)` of `prime_factors`. The test
`i <= sqrt(n)` is taken over the exact reals, where it says `i * i <= n` (and fails for
negative `n`, whose square root is not a number). `bound` is the fuel handed to the inner
loop. -/
def prime_factors_odd (bound : Nat) : Nat → Int → List Int → Int → Option (List Int × Int)
  | 0, _, _, _ => none
  | fuel + 1, i, factors, n =>
    if i * i ≤ n then
      match prime_factors_strip i bound factors n with
      | none => none
      | some (factors1, n1) => prime_factors_odd bound fuel (i + 2) factors1 n1
    else some (factors, n)

/-- Source function `std::vector<long long> prime_factors(long long n)`. -/
def prime_factors (n : Int) : Option (List Int) :=
  match prime_factors_strip 2 (n.natAbs + 1) [] n with
  | none => none
  | some (factors1, n1) =>
    match prime_factors_odd (n.natAbs + 1) (n.natAbs + 1) 3 factors1 n1 with
    | none => none
    | some (factors2, n2) => some (if n2 > 2 then factors2 ++ [n2] else factors2)

/-! ## LucasTester -/

/-- The loop `for (long long factor : factors)` of `lucas_test`; the value is `flag`. -/
def lucas_flag (a n : Int) : List Int → Bool
  | [] => true
  | factor :: rest =>
    if mod_pow a ((n - 1).tdiv factor) n == 1 then false else lucas_flag a n rest

/-- The base `rand() % (n - 2) + 2` of one trial of `lucas_test`, for the value `r` that
`rand()` returned. -/
def lucas_base (n r : Int) : Int :=
  r.tmod (n - 2) + 2

/-- The loop `for (int _ = 0; _ < trial_count; _++)` of `lucas_test`: the first argument counts
the trials that remain, the second is the index of the next `rand()` call. -/
def lucas_trials (n : Int) (factors : List Int) (rand : Nat → Int) : Nat → Nat → Bool
  | 0, _ => false
  | remaining + 1, i =>
    let a := lucas_base n (rand i)
    if mod_pow a (n - 1) n != 1 then false
    else if lucas_flag a n factors then true
    else lucas_trials n factors rand remaining (i + 1)

/-- Source function `bool lucas_test(long long n)`. -/
def lucas_test (n : Int) (rand : Nat → Int) : Option Bool :=
  if n == 1 then some false
  else if n == 2 then some true
  else if n.tmod 2 == 0 then some false
  else
    match prime_factors (n - 1) with
    | none => none
    | some factors => some (lucas_trials n factors rand 10 0)

/-! ## BailliePSWTester -/

/-- The table `known_primes` of `baillie_test`. -/
def known_primes : List Int := [2, 3, 5, 7, 11, 13, 17, 19, 23, 29, 31, 37, 41, 43, 47]

/-- The loop `for (long long known_prime : known_primes)` of `baillie_test`: `some b` when the
loop returns `b`, `none` when it runs to its end. -/
def baillie_sieve (num : Int) : List Int → Option Bool
  | [] => none
  | known_prime :: rest =>
    if num == known_prime then some true
    else if num.tmod known_prime == 0 then some false
    else baillie_sieve num rest

/-- Source function `bool baillie_test(long long num)`. -/
def baillie_test (num : Int) (draw : Nat → Int) (rand : Nat → Int) : Option Bool :=
  match baillie_sieve num known_primes with
  | some verdict => some verdict
  | none =>
    match isPrimeRM num 2 draw with
    | none => none
    | some false => some false
    | some true =>
      match lucas_test num rand with
      | none => none
      | some false => some false
      | some true => some true

/-! ## PrimeGenerator -/

/-- How a call of `generate_prime` ends. -/
inductive Outcome where
  | returned (value : Int)
  | assertion_failed
  | fuel_spent
  deriving DecidableEq, Repr

/-- The statement `candidate |= (1LL << (bits - 1)) | 1;` of `generate_prime`. -/
def candidate_of (bits s : Int) : Int :=
  Int.lor s (Int.lor ((1 : Int) <<< (bits - 1)) 1)

/-- The loop `while (true)` of `generate_prime`; iteration `i` draws `sample i` and hands the
witnesses `draw i` to `isPrimeRM`. -/
def generate_prime_loop (bits : Int) (sample : Nat → Int) (draw : Nat → Nat → Int) :
    Nat → Nat → Outcome
  | 0, _ => Outcome.fuel_spent
  | fuel + 1, i =>
    let candidate := candidate_of bits (sample i)
    match isPrimeRM candidate 50 (draw i) with
    | none => Outcome.fuel_spent
    | some true => Outcome.returned candidate
    | some false => generate_prime_loop bits sample draw fuel (i + 1)

/-- Source function `long long generate_prime(int bits)`. -/
def generate_prime (fuel : Nat) (bits : Int) (sample : Nat → Int) (draw : Nat → Nat → Int) :
    Outcome :=
  if bits > 1 then generate_prime_loop bits sample draw fuel 0
  else Outcome.assertion_failed

/-! ## Auxiliary definitions for the statements -/

/-- The witnesses in `[2, c - 4]` on which `millerTest` answers true for a composite `c` of
`4..100` (its strong liars). -/
def strong_liars (c : Int) : List Int :=
  if c = 25 then [7, 18]
  else if c = 28 then [3, 9, 19]
  else if c = 49 then [18, 19, 30, 31]
  else if c = 52 then [9, 23, 29, 43]
  else if c = 65 then [8, 18, 47, 57]
  else if c = 66 then [17, 25, 29, 31, 35, 37, 41, 49]
  else if c = 70 then [11, 19, 51, 59]
  else if c = 76 then [27, 31, 45, 49]
  else if c = 85 then [13, 38, 47, 72]
  else if c = 91 then [9, 10, 12, 16, 17, 22, 29, 38, 53, 62, 69, 74, 75, 79, 81, 82]
  else []

/-- The part of `isPrimeRM(n, k)` after its two early returns: the halving loop and the `k`
trials. -/
def isPrimeRM_trials_of (n k : Int) (draw : Nat → Int) : Option Bool :=
  match isPrimeRM_halve (n - 1).toNat (n - 1) with
  | none => none
  | some d => isPrimeRM_trials d n draw k.toNat 0

/-- One trial of `isPrimeRM(n, _)` with witness `a`: `millerTest(d, n)` for the `d` that
`isPrimeRM` computes. -/
def isPrimeRM_trial (n a : Int) : Option Bool :=
  match isPrimeRM_halve (n - 1).toNat (n - 1) with
  | none => none
  | some d => millerTest n.toNat a d n

/-- The composite numbers of `5..100`. -/
def small_composites : List Nat :=
  [6, 8, 9, 10, 12, 14, 15, 16, 18, 20, 21, 22, 24, 25, 26, 27, 28, 30, 32, 33, 34, 35, 36,
   38, 39, 40, 42, 44, 45, 46, 48, 49, 50, 51, 52, 54, 55, 56, 57, 58, 60, 62, 63, 64, 65, 66,
   68, 69, 70, 72, 74, 75, 76, 77, 78, 80, 81, 82, 84, 85, 86, 87, 88, 90, 91, 92, 93, 94, 95,
   96, 98, 99, 100]

/-- Whether `strong_liars c` lists exactly the witnesses of `[2, c - 4]` that one trial accepts. -/
def trial_table_ok (c : Nat) : Bool :=
  (List.range (c - 5)).all fun j =>
    isPrimeRM_trial c ((j : Int) + 2) == some ((strong_liars c).contains ((j : Int) + 2))

/-- The primes below 100, the table `2, 3, 5, 7, ..., 97`. -/
def table_primes : List Nat :=
  [2, 3, 5, 7, 11, 13, 17, 19, 23, 29, 31, 37, 41, 43, 47, 53, 59, 61, 67, 71, 73, 79, 83, 89,
   97]

/-! ## Machine arithmetic and instrumented loops -/

/-- The value a signed 64-bit variable holds after a result `x` that wraps around. -/
def wrap64 (x : Int) : Int :=
  (x + 2 ^ 63) % 2 ^ 64 - 2 ^ 63

/-- The loop of `mod_pow` with both products `result * base` and `base * base` computed in
wrap-around 64-bit arithmetic. -/
def mod_pow64_loop : Nat → Int → Int → Int → Int → Int
  | 0, result, _, _, _ => result
  | fuel + 1, result, base, exponent, modulus =>
    if exponent > 0 then
      let result1 :=
        if exponent.tmod 2 == 1 then (wrap64 (result * base)).tmod modulus else result
      mod_pow64_loop fuel result1 ((wrap64 (base * base)).tmod modulus) (exponent.tdiv 2) modulus
    else result

/-- Source function `mod_pow` on wrap-around 64-bit integers. -/
def mod_pow64 (base exponent modulus : Int) : Int :=
  mod_pow64_loop exponent.toNat 1 (base.tmod modulus) exponent modulus

/-- The exact values of the products that the loop of `mod_pow` computes, in the order of
computation: `result * base` on an odd exponent, then `base * base`, in every iteration. -/
def mod_pow_products : Nat → Int → Int → Int → Int → List Int
  | 0, _, _, _, _ => []
  | fuel + 1, result, base, exponent, modulus =>
    if exponent > 0 then
      let odd := exponent.tmod 2 == 1
      let result1 := if odd then (result * base).tmod modulus else result
      (if odd then [result * base] else []) ++ base * base ::
        mod_pow_products fuel result1 ((base * base).tmod modulus) (exponent.tdiv 2) modulus
    else []

/-- The loop `for (long long factor : factors)` of `lucas_test`, with `mod_pow` computed on
wrap-around 64-bit integers. -/
def lucas_flag64 (a n : Int) : List Int → Bool
  | [] => true
  | factor :: rest =>
    if mod_pow64 a ((n - 1).tdiv factor) n == 1 then false else lucas_flag64 a n rest

/-- The trial loop of `lucas_test`, with `mod_pow` computed on wrap-around 64-bit integers. -/
def lucas_trials64 (n : Int) (factors : List Int) (rand : Nat → Int) : Nat → Nat → Bool
  | 0, _ => false
  | remaining + 1, i =>
    let a := lucas_base n (rand i)
    if mod_pow64 a (n - 1) n != 1 then false
    else if lucas_flag64 a n factors then true
    else lucas_trials64 n factors rand remaining (i + 1)

/-- Source function `lucas_test` on wrap-around 64-bit integers: the only products it forms
are those of `mod_pow`. -/
def lucas_test64 (n : Int) (rand : Nat → Int) : Option Bool :=
  if n == 1 then some false
  else if n == 2 then some true
  else if n.tmod 2 == 0 then some false
  else
    match prime_factors (n - 1) with
    | none => none
    | some factors => some (lucas_trials64 n factors rand 10 0)

/-- The bounds of `std::uniform_int_distribution<long long> dis(2, n - 4)` in `millerTest`. -/
def millerTest_interval (n : Int) : Int × Int :=
  (2, n - 4)

/-- The loop `while (d != n - 1)` of `millerTest` with a record of its run: the verdict and the
value of `d` after each execution of the loop body. -/
def millerTest_loop_run : Nat → Int → Int → Int → Option (Bool × List Int)
  | 0, _, _, _ => none
  | fuel + 1, x, d, n =>
    if d != n - 1 then
      let x1 := (x * x).tmod n
      let d1 := d * 2
      if x1 == 1 then some (false, [d1])
      else if x1 == n - 1 then some (true, [d1])
      else
        match millerTest_loop_run fuel x1 d1 n with
        | none => none
        | some (verdict, ds) => some (verdict, d1 :: ds)
    else some (false, [])

/-- The witnesses in `[2, 557]` on which `millerTest(35, 561)` answers true. -/
def strong_liars_561 : List Int := [50, 101, 103, 256, 305, 458, 460, 511]

/-- Whether `strong_liars_561` lists exactly the witnesses of `[2, 557]` that
`millerTest(35, 561)` accepts. -/
def liars_561_ok : Bool :=
  (List.range 556).all fun j =>
    millerTest 561 ((j : Int) + 2) 35 561 == some (strong_liars_561.contains ((j : Int) + 2))

/-- The draws of `isPrimeRM(n, 5)` that a tuple of five witnesses stands for. -/
def tuple_draw (t : Fin 5 → Int) (i : Nat) : Int :=
  if h : i < 5 then t ⟨i, h⟩ else 2

/-! ## Theorems -/

/-! ### ModularArithmetic -/

/-- The truncated remainder is odd in its dividend. -/
theorem neg_tmod (a b : Int) : (-a).tmod b = -(a.tmod b) := by
  rw [Int.tmod_def, Int.tmod_def, Int.neg_tdiv]; ring

/-- Reducing the left factor does not change the truncated remainder of a product. -/
theorem tmod_mul_tmod_left (a b m : Int) : (a.tmod m * b).tmod m = (a * b).tmod m := by
  obtain ⟨n, rfl | rfl⟩ := a.eq_nat_or_neg <;> obtain ⟨k, rfl | rfl⟩ := b.eq_nat_or_neg <;>
    obtain ⟨j, rfl | rfl⟩ := m.eq_nat_or_neg <;>
    (try simp only [neg_tmod, Int.tmod_neg, neg_mul, mul_neg, neg_neg, neg_inj]) <;>
    simp only [← Int.ofNat_tmod, ← Nat.cast_mul, Nat.mod_mul_mod]

/-- Reducing the right factor does not change the truncated remainder of a product. -/
theorem tmod_mul_tmod_right (a b m : Int) : (a * b.tmod m).tmod m = (a * b).tmod m := by
  rw [mul_comm, tmod_mul_tmod_left, mul_comm]

/-- Reducing the base does not change the truncated remainder of a power. -/
theorem tmod_pow_tmod (a m : Int) (k : Nat) : ((a.tmod m) ^ k).tmod m = (a ^ k).tmod m := by
  induction k with
  | zero => simp
  | succ k ih =>
    rw [pow_succ, tmod_mul_tmod_right, ← tmod_mul_tmod_left, ih, tmod_mul_tmod_left, ← pow_succ]


/-- With a non-positive exponent the loop body does not run. -/
theorem mod_pow_loop_nonpos (fuel : Nat) (r b e m : Int) (he : e ≤ 0) :
    mod_pow_loop fuel r b e m = r := by
  cases fuel with
  | zero => rfl
  | succ f => simp [mod_pow_loop, not_lt.mpr he]

/-- Loop invariant of `mod_pow`: from the state `(r, b, e)` with `e > 0` and at least `e`
iterations allowed, the loop ends with the truncated remainder of `r * b ^ e`. -/
theorem mod_pow_loop_eq : ∀ (fuel : Nat) (r b e m : Int), 0 < e → e.toNat ≤ fuel →
    mod_pow_loop fuel r b e m = (r * b ^ e.toNat).tmod m := by
  intro fuel
  induction fuel with
  | zero => intro r b e m he hf; omega
  | succ f ih =>
    intro r b e m he hf
    obtain ⟨n, rfl⟩ := Int.eq_ofNat_of_zero_le he.le
    have hn : 0 < n := by exact_mod_cast he
    simp only [Int.toNat_ofNat] at hf ⊢
    have hdiv : (n : Int).tdiv 2 = ((n / 2 : Nat) : Int) := (Int.ofNat_tdiv n 2).symm
    have hmod : (n : Int).tmod 2 = ((n % 2 : Nat) : Int) := (Int.ofNat_tmod n 2).symm
    rw [mod_pow_loop, if_pos he, hdiv, hmod]
    have hsplit : n = 2 * (n / 2) + n % 2 := (Nat.div_add_mod n 2).symm
    rcases Nat.eq_zero_or_pos (n / 2) with h0 | hpos
    · have h1 : n = 1 := by omega
      subst h1
      simp [mod_pow_loop_nonpos]
    · have hk : (0 : Int) < ((n / 2 : Nat) : Int) := by exact_mod_cast hpos
      have hle : ((n / 2 : Nat) : Int).toNat ≤ f := by simp; omega
      simp only []
      rw [ih _ _ _ m hk hle, Int.toNat_ofNat]
      rcases Nat.mod_two_eq_zero_or_one n with hm | hm
      · rw [hm]
        have hn2 : n = 2 * (n / 2) := by omega
        simp only [Nat.cast_zero, beq_iff_eq, zero_ne_one, if_false]
        rw [← tmod_mul_tmod_right, tmod_pow_tmod, tmod_mul_tmod_right]
        conv_rhs => rw [hn2]
        rw [pow_mul, pow_two]
      · rw [hm]
        have hn2 : n = 2 * (n / 2) + 1 := by omega
        simp only [Nat.cast_one, beq_self_eq_true, if_true]
        rw [tmod_mul_tmod_left, ← tmod_mul_tmod_right, tmod_pow_tmod, tmod_mul_tmod_right]
        conv_rhs => rw [hn2]
        rw [pow_succ, pow_mul, pow_two]
        ring_nf

/-- Closed form of `mod_pow`, for every base, exponent and modulus. -/
theorem mod_pow_eq (base exponent modulus : Int) :
    mod_pow base exponent modulus =
      if 0 < exponent then (base ^ exponent.toNat).tmod modulus else 1 := by
  unfold mod_pow
  split
  · next h => rw [mod_pow_loop_eq _ _ _ _ _ h le_rfl, one_mul, tmod_pow_tmod]
  · next h => exact mod_pow_loop_nonpos _ _ _ _ _ (not_lt.mp h)

/-- The iteration bound of `mod_pow_loop` is never reached: every bound of at least `exponent`
gives the same result. -/
theorem mod_pow_loop_fuel (fuel : Nat) (r b e m : Int) (hf : e.toNat ≤ fuel) :
    mod_pow_loop fuel r b e m = mod_pow_loop e.toNat r b e m := by
  rcases lt_or_le 0 e with h | h
  · rw [mod_pow_loop_eq _ _ _ _ _ h hf, mod_pow_loop_eq _ _ _ _ _ h le_rfl]
  · rw [mod_pow_loop_nonpos _ _ _ _ _ h, mod_pow_loop_nonpos _ _ _ _ _ h]

/-- The truncated remainder is congruent to the dividend. -/
theorem tmod_modEq (x m : Int) : x.tmod m ≡ x [ZMOD m] := by
  rw [Int.modEq_iff_dvd, Int.tmod_def]
  exact ⟨x.tdiv m, by ring⟩

/-- The truncated remainder by a positive modulus is above `-modulus`. -/
theorem neg_lt_tmod (x : Int) {m : Int} (hm : 0 < m) : -m < x.tmod m := by
  rcases le_or_lt 0 x with h | h
  · have := Int.tmod_nonneg m h
    omega
  · have h1 : x.tmod m = -((-x).tmod m) := by rw [neg_tmod, neg_neg]
    have h2 := Int.tmod_lt_of_pos (-x) hm
    omega

/-- For non-negative base and exponent `mod_pow` is the mathematical residue. -/
theorem mod_pow_of_nonneg (base exponent modulus : Int) (hb : 0 ≤ base) (he : 0 ≤ exponent)
    (hm : 1 < modulus) : mod_pow base exponent modulus = base ^ exponent.toNat % modulus := by
  rw [mod_pow_eq]
  split
  · exact Int.tmod_eq_emod (pow_nonneg hb _) (by omega)
  · next h =>
    have h0 : exponent = 0 := by omega
    subst h0
    simp only [Int.toNat_zero, pow_zero]
    exact (Int.emod_eq_of_lt (by omega) hm).symm

/-- C1: for every base >= 0, exponent >= 0 and modulus > 1, `mod_pow` returns
`base ^ exponent mod modulus`; in particular `mod_pow(2, 10, 1000) = 24` and
`mod_pow(7, 560, 561) = 1`. -/
theorem mod_pow_correct (base exponent modulus : Int) (hb : 0 ≤ base) (he : 0 ≤ exponent)
    (hm : 1 < modulus) :
    mod_pow base exponent modulus = base ^ exponent.toNat % modulus ∧
      mod_pow 2 10 1000 = 24 ∧ mod_pow 7 560 561 = 1 := by
  refine ⟨?_, by decide, by decide⟩
  rw [mod_pow_eq]
  by_cases h : 0 < exponent
  · rw [if_pos h]
    exact Int.tmod_eq_emod (pow_nonneg hb _) (by omega)
  · rw [if_neg h]
    have h0 : exponent = 0 := by omega
    rw [h0, Int.toNat_zero, pow_zero]
    exact (Int.emod_eq_of_lt (by omega) hm).symm

theorem mod_pow_correct_witness :
    mod_pow 3 5 7 = 3 ^ (5 : Int).toNat % 7 ∧ mod_pow 2 10 1000 = 24 ∧ mod_pow 7 560 561 = 1 :=
  mod_pow_correct 3 5 7 (by decide) (by decide) (by decide)

/-- C8: evaluation of `mod_pow` at modulus 1. With exponent 0 the loop body never runs and the
initial `result = 1` is returned unreduced, so `mod_pow(5, 0, 1)` is 1 and not 0; the value is 0
exactly when the exponent is positive. -/
theorem mod_pow_modulus_one :
    mod_pow 5 0 1 = 1 ∧ ∀ a e : Int, mod_pow a e 1 = if 0 < e then 0 else 1 := by
  refine ⟨by decide, fun a e => ?_⟩
  rw [mod_pow_eq]
  simp

/-- C9: for every base `a` and every modulus `n > 1`, `mod_pow(a, 0, n)` returns 1. -/
theorem mod_pow_exponent_zero (a n : Int) (_hn : 1 < n) : mod_pow a 0 n = 1 := by
  rw [mod_pow_eq]
  simp

theorem mod_pow_exponent_zero_witness : mod_pow (-4) 0 9 = 1 :=
  mod_pow_exponent_zero (-4) 9 (by decide)

/-- C10, as stated, fails: `mod_pow(-1, 1, 3)` is -1, which is not a residue in `[0, 3)`, in
exact and in 64-bit arithmetic alike; and with a modulus above 3037000500 the 64-bit product
overflows even for a non-negative base: `mod_pow(3037000500, 2, 3037000501)` is -2746052118
where the residue is 1. -/
theorem mod_pow_negative_base_counterexample :
    mod_pow (-1) 1 3 = -1 ∧ ¬ (0 ≤ mod_pow (-1) 1 3 ∧ mod_pow (-1) 1 3 < 3) ∧
      mod_pow64 (-1) 1 3 = -1 ∧
      mod_pow64 3037000500 2 3037000501 = -2746052118 ∧
      (3037000500 : Int) ^ 2 % 3037000501 = 1 := by
  decide

/-! ### Miller-Rabin -/

/-- The halving loop of `isPrimeRM` ends on every `d > 0`, with the odd part `d1` of `d`. -/
theorem isPrimeRM_halve_spec : ∀ (fuel : Nat) (d : Int), 0 < d → d.toNat ≤ fuel →
    ∃ (d1 : Int) (s : Nat), isPrimeRM_halve fuel d = some d1 ∧ d = d1 * 2 ^ s ∧ 0 < d1 ∧
      d1 % 2 = 1 := by
  intro fuel
  induction fuel with
  | zero => intro d hd hf; omega
  | succ f ih =>
    intro d hd hf
    have hmod : d.tmod 2 = d % 2 := Int.tmod_eq_emod hd.le (by decide)
    have hdiv : d.tdiv 2 = d / 2 := Int.tdiv_eq_ediv hd.le (by decide)
    rw [isPrimeRM_halve, hmod, hdiv]
    by_cases h : d % 2 = 0
    · obtain ⟨d1, s, h1, h2, h3, h4⟩ := ih (d / 2) (by omega) (by omega)
      refine ⟨d1, s + 1, ?_, ?_, h3, h4⟩
      · simpa [h] using h1
      · have : d = d / 2 * 2 := by omega
        rw [this, h2, pow_succ]; ring
    · refine ⟨d, 0, ?_, by simp, hd, by omega⟩
      simp [h]

/-- The squaring loop of `millerTest` ends within `r + 1` iterations when `d * 2 ^ r = n - 1`. -/
theorem millerTest_loop_terminates : ∀ (r fuel : Nat) (x d n : Int), 0 < d →
    d * 2 ^ r = n - 1 → r < fuel → ∃ b, millerTest_loop fuel x d n = some b := by
  intro r
  induction r with
  | zero =>
    intro fuel x d n hd hr hf
    obtain ⟨f, rfl⟩ : ∃ f, fuel = f + 1 := ⟨fuel - 1, by omega⟩
    have : d = n - 1 := by simpa using hr
    exact ⟨false, by simp [millerTest_loop, this]⟩
  | succ r ih =>
    intro fuel x d n hd hr hf
    obtain ⟨f, rfl⟩ : ∃ f, fuel = f + 1 := ⟨fuel - 1, by omega⟩
    rw [millerTest_loop]
    by_cases h0 : d = n - 1
    · exact ⟨false, by simp [h0]⟩
    · simp only [bne_iff_ne, ne_eq, h0, not_false_eq_true, if_true]
      by_cases h1 : (x * x).tmod n = 1
      · exact ⟨false, by simp [h1]⟩
      · by_cases h2 : (x * x).tmod n = n - 1
        · exact ⟨true, by simp only [beq_iff_eq]; rw [if_neg h1, if_pos h2]⟩
        · simp only [beq_iff_eq, h1, h2, if_false]
          exact ih f _ (d * 2) n (by omega) (by rw [← hr, pow_succ]; ring) (by omega)

/-- Modulo a prime the only square roots of 1 are 1 and `p - 1`. -/
theorem sq_modEq_one_prime {p : Nat} (hp : p.Prime) {x : Int} (hx0 : 0 ≤ x) (hxp : x < p)
    (h : x * x % (p : Int) = 1) : x = 1 ∨ x = p - 1 := by
  have hdvd : (p : Int) ∣ (x - 1) * (x + 1) := by
    have : (x - 1) * (x + 1) = x * x - 1 := by ring
    rw [this]
    apply Int.ModEq.dvd
    rw [Int.ModEq, h]
    exact Int.emod_eq_of_lt (by omega) (by have := hp.two_le; omega)
  have hp2 := hp.two_le
  rcases Int.Prime.dvd_mul' hp hdvd with h1 | h1
  · obtain ⟨c, hc⟩ := h1
    left
    have : c = 0 := by
      by_contra hne
      rcases lt_or_gt_of_ne hne with hneg | hpos
      · have : (p : Int) * c ≤ (p : Int) * (-1) := by
          apply mul_le_mul_of_nonneg_left (by omega) (by omega)
        omega
      · have : (p : Int) * 1 ≤ (p : Int) * c := by
          apply mul_le_mul_of_nonneg_left (by omega) (by omega)
        omega
    subst this
    omega
  · obtain ⟨c, hc⟩ := h1
    right
    have : c = 1 := by
      by_contra hne
      rcases lt_or_gt_of_ne hne with hneg | hpos
      · have : (p : Int) * c ≤ (p : Int) * 0 := by
          apply mul_le_mul_of_nonneg_left (by omega) (by omega)
        omega
      · have : (p : Int) * 2 ≤ (p : Int) * c := by
          apply mul_le_mul_of_nonneg_left (by omega) (by omega)
        omega
    subst this
    omega

/-- For a prime modulus the squaring loop answers true from every state `x` other than 1 and `p -
1` whose `2 ^ r`-th power is 1. -/
theorem millerTest_loop_prime {p : Nat} (hp : p.Prime) : ∀ (r fuel : Nat) (x d : Int),
    0 ≤ x → x < p → 0 < d → d * 2 ^ r = (p : Int) - 1 → r < fuel →
    x ^ (2 ^ r) ≡ 1 [ZMOD p] → x ≠ 1 → x ≠ (p : Int) - 1 →
    millerTest_loop fuel x d p = some true := by
  have hp2 := hp.two_le
  intro r
  induction r with
  | zero =>
    intro fuel x d hx0 hxp hd hr hf hpow h1 h2
    exfalso
    apply h1
    have : x % (p : Int) = 1 % (p : Int) := by simpa [Int.ModEq] using hpow
    rw [Int.emod_eq_of_lt hx0 hxp, Int.emod_eq_of_lt (by omega) (by omega)] at this
    exact this
  | succ r ih =>
    intro fuel x d hx0 hxp hd hr hf hpow h1 h2
    obtain ⟨f, rfl⟩ : ∃ f, fuel = f + 1 := ⟨fuel - 1, by omega⟩
    have hpos : (0 : Int) < 2 ^ r := by positivity
    have hne : d ≠ (p : Int) - 1 := by
      intro h
      rw [pow_succ, ← mul_assoc] at hr
      nlinarith
    have hxx : (x * x).tmod p = x * x % (p : Int) :=
      Int.tmod_eq_emod (mul_nonneg hx0 hx0) (by omega)
    rw [millerTest_loop, hxx]
    simp only [bne_iff_ne, ne_eq, hne, not_false_eq_true, if_true, beq_iff_eq]
    have hx1 : x * x % (p : Int) ≠ 1 := by
      intro h
      rcases sq_modEq_one_prime hp hx0 hxp h with h' | h'
      · exact h1 h'
      · exact h2 h'
    rw [if_neg hx1]
    by_cases hx2 : x * x % (p : Int) = p - 1
    · rw [if_pos hx2]
    · rw [if_neg hx2]
      apply ih f _ (d * 2) (Int.emod_nonneg _ (by omega)) (Int.emod_lt_of_pos _ (by omega))
        (by omega) (by rw [← hr, pow_succ]; ring) (by omega) _ hx1 hx2
      have hmod : x * x % (p : Int) ≡ x * x [ZMOD p] := Int.mod_modEq _ _
      have := hmod.pow (2 ^ r)
      refine this.trans ?_
      have e : (x * x) ^ 2 ^ r = x ^ 2 ^ (r + 1) := by
        rw [← pow_two, ← pow_mul, pow_succ, mul_comm]
      rw [e]
      exact hpow

/-- One trial with a witness in `[2, p - 4]` accepts a prime `p`. -/
theorem millerTest_prime {p : Nat} (hp : p.Prime) (a d : Int) (s fuel : Nat)
    (ha2 : 2 ≤ a) (hap : a ≤ (p : Int) - 4) (hd : 0 < d) (hds : d * 2 ^ s = (p : Int) - 1)
    (hf : s < fuel) : millerTest fuel a d p = some true := by
  have hp2 := hp.two_le
  have hx : mod_pow a d p = a ^ d.toNat % (p : Int) :=
    mod_pow_of_nonneg a d p (by omega) hd.le (by omega)
  unfold millerTest
  simp only [hx, Bool.or_eq_true, beq_iff_eq]
  by_cases h : a ^ d.toNat % (p : Int) = 1 ∨ a ^ d.toNat % (p : Int) = (p : Int) - 1
  · rw [if_pos h]
  · rw [if_neg h]
    push_neg at h
    apply millerTest_loop_prime hp s fuel _ d (Int.emod_nonneg _ (by omega))
      (Int.emod_lt_of_pos _ (by omega)) hd hds hf _ h.1 h.2
    have hcop : IsCoprime a (p : Int) := by
      rw [Int.isCoprime_iff_gcd_eq_one, Int.gcd_comm]
      have : a = (a.toNat : Int) := (Int.toNat_of_nonneg (by omega)).symm
      rw [this, Int.gcd_natCast_natCast]
      apply (Nat.Prime.coprime_iff_not_dvd hp).mpr
      intro hdiv
      have := Nat.le_of_dvd (by omega) hdiv
      omega
    have hfermat := Int.ModEq.pow_card_sub_one_eq_one hp hcop
    have hmod : a ^ d.toNat % (p : Int) ≡ a ^ d.toNat [ZMOD p] := Int.mod_modEq _ _
    refine (hmod.pow (2 ^ s)).trans ?_
    have e : (a ^ d.toNat) ^ 2 ^ s = a ^ (p - 1) := by
      rw [← pow_mul]
      congr 1
      have h1 : ((d.toNat * 2 ^ s : Nat) : Int) = ((p - 1 : Nat) : Int) := by
        push_cast
        rw [Int.toNat_of_nonneg hd.le, hds, Nat.cast_sub (by omega)]
        simp
      exact_mod_cast h1
    rw [e]
    exact hfermat

/-- The trial loop answers true when every trial does. -/
theorem isPrimeRM_trials_all_true (d n : Int) (draw : Nat → Int) : ∀ (remaining i : Nat),
    (∀ j, i ≤ j → j < i + remaining → millerTest n.toNat (draw j) d n = some true) →
    isPrimeRM_trials d n draw remaining i = some true := by
  intro remaining
  induction remaining with
  | zero => intro i _; rfl
  | succ k ih =>
    intro i h
    rw [isPrimeRM_trials, h i le_rfl (by omega)]
    exact ih (i + 1) (fun j h1 h2 => h j (by omega) (by omega))

/-- The number of doublings from `d` to `n - 1` is below `n`, the fuel that `isPrimeRM` hands to
`millerTest`. -/
theorem pow_two_le_lt {s : Nat} {d n : Int} (hd : 0 < d) (h : d * 2 ^ s = n - 1) :
    s < n.toNat := by
  have h1 : (2 : Int) ^ s ≤ n - 1 := by
    rw [← h]
    have : (0 : Int) < 2 ^ s := by positivity
    nlinarith
  have h2 : s < 2 ^ s := Nat.lt_two_pow s
  have h3 : ((2 ^ s : Nat) : Int) ≤ n - 1 := by exact_mod_cast h1
  omega

/-- From `n >= 5` on `isPrimeRM` passes its early returns. -/
theorem isPrimeRM_eq_trials (n k : Int) (draw : Nat → Int) (hn : 5 ≤ n) :
    isPrimeRM n k draw = isPrimeRM_trials_of n k draw := by
  unfold isPrimeRM isPrimeRM_trials_of
  have hc1 : ¬ ((n ≤ 1 || n == 4) = true) := by
    simp only [Bool.or_eq_true, decide_eq_true_eq, beq_iff_eq, not_or]
    exact ⟨by omega, by omega⟩
  rw [if_neg hc1, if_neg (by omega)]

/-- The trials of `isPrimeRM` all accept a prime `p >= 5` on witnesses in `[2, p - 4]`. -/
theorem isPrimeRM_prime_ge_five (p : Nat) (hp : p.Prime) (hp5 : 5 ≤ p) (k : Int)
    (draw : Nat → Int) (hdraw : ∀ i : Nat, (i : Int) < k → 2 ≤ draw i ∧ draw i ≤ (p : Int) - 4) :
    isPrimeRM_trials_of p k draw = some true := by
  unfold isPrimeRM_trials_of
  obtain ⟨d, s, hd1, hd2, hd3, _⟩ :=
    isPrimeRM_halve_spec ((p : Int) - 1).toNat ((p : Int) - 1) (by omega) le_rfl
  rw [hd1]
  apply isPrimeRM_trials_all_true
  intro j _ hj
  obtain ⟨ha, hb⟩ := hdraw j (by omega)
  exact millerTest_prime hp (draw j) d s _ ha hb hd3 hd2.symm (pow_two_le_lt hd3 hd2.symm)

/-- C2: evaluation of `isPrimeRM` on primes. At the prime 5 the interval `[2, n - 4]` of the
witness draw is the empty `[2, 1]`, and `isPrimeRM(5, 1)` returns false on the drawn values 10
and -1; on every other prime `isPrimeRM(p, k)` returns true for every `k`, without a draw for
`p = 2, 3` and for every choice of the witnesses in `[2, p - 4]` from `p = 7` on. -/
theorem isPrimeRM_rejects_five :
    (millerTest_interval 5).2 < (millerTest_interval 5).1 ∧
    isPrimeRM 5 1 (fun _ => 10) = some false ∧
    isPrimeRM 5 1 (fun _ => -1) = some false ∧
    ∀ p : Nat, p.Prime → p ≠ 5 → ∀ (k : Int) (draw : Nat → Int),
      (7 ≤ p → ∀ i : Nat, (i : Int) < k → 2 ≤ draw i ∧ draw i ≤ (p : Int) - 4) →
      isPrimeRM p k draw = some true := by
  refine ⟨by decide, by decide, by decide, ?_⟩
  intro p hp h5 k draw hdraw
  have hp2 := hp.two_le
  have h4 : p ≠ 4 := by
    rintro rfl
    exact absurd hp (by decide)
  have h6 : p ≠ 6 := by
    rintro rfl
    exact absurd hp (by decide)
  by_cases h3 : p ≤ 3
  · unfold isPrimeRM
    have hc1 : ¬ (((p : Int) ≤ 1 || (p : Int) == 4) = true) := by
      simp only [Bool.or_eq_true, decide_eq_true_eq, beq_iff_eq, not_or]
      exact ⟨by omega, by omega⟩
    rw [if_neg hc1, if_pos (by omega)]
  · rw [isPrimeRM_eq_trials _ _ _ (by omega)]
    exact isPrimeRM_prime_ge_five p hp (by omega) k draw (hdraw (by omega))

set_option maxRecDepth 100000 in
/-- The table `strong_liars` agrees with the code on every composite of `5..100` and every witness
of `[2, c - 4]`. -/
theorem trial_table : small_composites.all trial_table_ok = true := by
  decide

/-- The list `small_composites` holds every composite of `5..100`. -/
theorem small_composites_complete : ∀ c : Nat, c < 101 → 4 < c → ¬ c.Prime →
    c ∈ small_composites := by
  decide

/-- One trial on a composite of `5..100` accepts exactly the strong liars. -/
theorem isPrimeRM_trial_small (c : Nat) (hc : c ∈ small_composites) (a : Int) (ha2 : 2 ≤ a)
    (hac : a ≤ (c : Int) - 4) :
    isPrimeRM_trial c a = some ((strong_liars c).contains a) := by
  have h := trial_table
  rw [List.all_eq_true] at h
  have h1 := h c hc
  unfold trial_table_ok at h1
  rw [List.all_eq_true] at h1
  have h2 := h1 (a - 2).toNat (by rw [List.mem_range]; omega)
  have e : (((a - 2).toNat : Nat) : Int) + 2 = a := by omega
  rw [e] at h2
  simpa using h2

/-- The trial loop answers true exactly when every trial does, given the answer `f` of each trial.
-/
theorem isPrimeRM_trials_spec (d n : Int) (draw : Nat → Int) (f : Int → Bool) :
    ∀ (remaining i : Nat),
    (∀ j, i ≤ j → j < i + remaining → millerTest n.toNat (draw j) d n = some (f (draw j))) →
    ∃ b, isPrimeRM_trials d n draw remaining i = some b ∧
      (b = true ↔ ∀ j, i ≤ j → j < i + remaining → f (draw j) = true) := by
  intro remaining
  induction remaining with
  | zero =>
    intro i _
    exact ⟨true, rfl, by simp; intro j h1 h2; omega⟩
  | succ k ih =>
    intro i h
    rw [isPrimeRM_trials, h i le_rfl (by omega)]
    cases hf : f (draw i) with
    | false =>
      refine ⟨false, rfl, ?_⟩
      simp only [Bool.false_eq_true, false_iff, not_forall]
      exact ⟨i, le_rfl, by omega, by simp [hf]⟩
    | true =>
      obtain ⟨b, hb1, hb2⟩ := ih (i + 1) (fun j h1 h2 => h j (by omega) (by omega))
      refine ⟨b, hb1, hb2.trans ⟨fun hall j h1 h2 => ?_, fun hall j h1 h2 => hall j (by omega) (by omega)⟩⟩
      rcases Nat.eq_or_lt_of_le h1 with h3 | h3
      · rw [← h3]; exact hf
      · exact hall j h3 (by omega)

/-- Outside the ten listed composites there is no strong liar. -/
theorem strong_liars_eq_nil (c : Nat) (h : c ∉ [25, 28, 49, 52, 65, 66, 70, 76, 85, 91]) :
    strong_liars c = [] := by
  have h1 : c ≠ 25 := fun e => h (by rw [e]; decide)
  have h2 : c ≠ 28 := fun e => h (by rw [e]; decide)
  have h3 : c ≠ 49 := fun e => h (by rw [e]; decide)
  have h4 : c ≠ 52 := fun e => h (by rw [e]; decide)
  have h5 : c ≠ 65 := fun e => h (by rw [e]; decide)
  have h6 : c ≠ 66 := fun e => h (by rw [e]; decide)
  have h7 : c ≠ 70 := fun e => h (by rw [e]; decide)
  have h8 : c ≠ 76 := fun e => h (by rw [e]; decide)
  have h9 : c ≠ 85 := fun e => h (by rw [e]; decide)
  have h10 : c ≠ 91 := fun e => h (by rw [e]; decide)
  have e1 : ¬ ((c : Int) = 25) := by omega
  have e2 : ¬ ((c : Int) = 28) := by omega
  have e3 : ¬ ((c : Int) = 49) := by omega
  have e4 : ¬ ((c : Int) = 52) := by omega
  have e5 : ¬ ((c : Int) = 65) := by omega
  have e6 : ¬ ((c : Int) = 66) := by omega
  have e7 : ¬ ((c : Int) = 70) := by omega
  have e8 : ¬ ((c : Int) = 76) := by omega
  have e9 : ¬ ((c : Int) = 85) := by omega
  have e10 : ¬ ((c : Int) = 91) := by omega
  rw [strong_liars, if_neg e1, if_neg e2, if_neg e3, if_neg e4, if_neg e5, if_neg e6, if_neg e7,
    if_neg e8, if_neg e9, if_neg e10]

/-- C3, as stated, fails: 25 is composite and 7 lies in `[2, 21]`, yet `isPrimeRM(25, 2)`
returns true when both trials draw the witness 7. -/
theorem isPrimeRM_small_composite_counterexample :
    ¬ Nat.Prime 25 ∧ (∀ i : Nat, (i : Int) < 2 → (2 : Int) ≤ 7 ∧ (7 : Int) ≤ ((25 : Nat) : Int) - 4) ∧
      isPrimeRM (25 : Nat) 2 (fun _ => 7) = some true := by
  refine ⟨by norm_num, fun _ _ => by decide, by decide⟩

/-- C3, amended: for every composite `c` in `4..100`, every `k >= 2` and every choice of the `k`
witnesses in `[2, c - 4]`, `isPrimeRM(c, k)` returns false exactly when at least one drawn
witness is not a strong liar of `c`, and true exactly when all of them are; strong liars in
`[2, c - 4]` exist only for `c` in 25, 28, 49, 52, 65, 66, 70, 76, 85, 91, so for every other
composite of `4..100` the result is false for every choice of witnesses. -/
theorem isPrimeRM_small_composite (c : Nat) (hc4 : 4 ≤ c) (hc100 : c ≤ 100) (hcomp : ¬ c.Prime)
    (k : Int) (hk : 2 ≤ k) (draw : Nat → Int)
    (hdraw : ∀ i : Nat, (i : Int) < k → 2 ≤ draw i ∧ draw i ≤ (c : Int) - 4) :
    (isPrimeRM c k draw = some false ↔ ∃ i : Nat, (i : Int) < k ∧ draw i ∉ strong_liars c) ∧
    (isPrimeRM c k draw = some true ↔ ∀ i : Nat, (i : Int) < k → draw i ∈ strong_liars c) ∧
    (c ∉ [25, 28, 49, 52, 65, 66, 70, 76, 85, 91] → isPrimeRM c k draw = some false) := by
  have key : ∃ b, isPrimeRM c k draw = some b ∧
      (b = true ↔ ∀ i : Nat, (i : Int) < k → draw i ∈ strong_liars c) := by
    rcases Nat.eq_or_lt_of_le hc4 with h4 | h4
    · subst h4
      refine ⟨false, by simp [isPrimeRM], ?_⟩
      constructor
      · intro h; cases h
      · intro h
        exact absurd (h 0 (by omega)) (by simp [strong_liars])
    · have hmem := small_composites_complete c (by omega) h4 hcomp
      rw [isPrimeRM_eq_trials _ _ _ (by omega)]
      unfold isPrimeRM_trials_of
      obtain ⟨d, s, hd1, -⟩ :=
        isPrimeRM_halve_spec ((c : Int) - 1).toNat ((c : Int) - 1) (by omega) le_rfl
      have htrial : ∀ a : Int, 2 ≤ a → a ≤ (c : Int) - 4 →
          millerTest (c : Int).toNat a d c = some ((strong_liars c).contains a) := by
        intro a h1 h2
        have := isPrimeRM_trial_small c hmem a h1 h2
        unfold isPrimeRM_trial at this
        rw [hd1] at this
        exact this
      rw [hd1]
      obtain ⟨b, hb1, hb2⟩ := isPrimeRM_trials_spec d c draw
        (fun a => (strong_liars c).contains a) k.toNat 0
        (fun j _ hj => htrial _ (hdraw j (by omega)).1 (hdraw j (by omega)).2)
      refine ⟨b, hb1, hb2.trans ⟨fun h i hi => ?_, fun h j _ hj => ?_⟩⟩
      · simpa using h i (Nat.zero_le _) (by omega)
      · simpa using h j (by omega)
  obtain ⟨b, hb1, hb2⟩ := key
  rw [hb1]
  refine ⟨?_, ?_, ?_⟩
  · cases b with
    | false =>
      simp only [true_iff]
      by_contra hcon
      push_neg at hcon
      exact absurd (hb2.mpr hcon) (by simp)
    | true =>
      simp only [Option.some.injEq, Bool.true_eq_false, false_iff, not_exists, not_and, not_not]
      exact hb2.mp rfl
  · simp only [Option.some.injEq]
    exact hb2
  · intro hnot
    have hempty : strong_liars c = [] := strong_liars_eq_nil c hnot
    cases b with
    | false => rfl
    | true =>
      have := hb2.mp rfl 0 (by omega)
      rw [hempty] at this
      exact absurd this (List.not_mem_nil _)

theorem isPrimeRM_small_composite_witness :
    (isPrimeRM (25 : Nat) 2 (fun i => 7 + (i : Int)) = some false ↔
        ∃ i : Nat, (i : Int) < 2 ∧ (fun i : Nat => 7 + (i : Int)) i ∉ strong_liars (25 : Nat)) ∧
    (isPrimeRM (25 : Nat) 2 (fun i => 7 + (i : Int)) = some true ↔
        ∀ i : Nat, (i : Int) < 2 → (fun i : Nat => 7 + (i : Int)) i ∈ strong_liars (25 : Nat)) ∧
    (25 ∉ [25, 28, 49, 52, 65, 66, 70, 76, 85, 91] →
        isPrimeRM (25 : Nat) 2 (fun i => 7 + (i : Int)) = some false) :=
  isPrimeRM_small_composite 25 (by decide) (by decide) (by norm_num) 2 (by decide)
    (fun i => 7 + (i : Int)) (fun i hi => by constructor <;> push_cast <;> omega)

/-! ### Factorizer -/

/-- The inner loop of `prime_factors` divides `i` out of `n` completely: it ends with `e` copies
of `i` appended and the residual `n1` with `n = i ^ e * n1` and `i` not dividing `n1`. -/
theorem prime_factors_strip_spec (i : Nat) (hi : 2 ≤ i) : ∀ (fuel : Nat) (fs : List Int) (n : Nat),
    0 < n → n < fuel →
    ∃ (e n1 : Nat), prime_factors_strip (i : Int) fuel fs (n : Int)
        = some (fs ++ (List.replicate e i).map Nat.cast, (n1 : Int)) ∧
      n = i ^ e * n1 ∧ 0 < n1 ∧ ¬ i ∣ n1 ∧ (0 < e → i ∣ n) := by
  intro fuel
  induction fuel with
  | zero => intro fs n _ hf; omega
  | succ f ih =>
    intro fs n hn hf
    rw [prime_factors_strip, ← Int.ofNat_tmod, ← Int.ofNat_tdiv]
    by_cases h : n % i = 0
    · have hdvd : i ∣ n := Nat.dvd_of_mod_eq_zero h
      have hlt : n / i < n := Nat.div_lt_self hn (by omega)
      have hpos : 0 < n / i := Nat.div_pos (Nat.le_of_dvd hn hdvd) (by omega)
      obtain ⟨e, n1, h1, h2, h3, h4, _⟩ := ih (fs ++ [(i : Int)]) (n / i) hpos (by omega)
      refine ⟨e + 1, n1, ?_, ?_, h3, h4, fun _ => hdvd⟩
      · simp only [h, Nat.cast_zero, beq_self_eq_true, if_true]
        rw [h1, List.replicate_succ, List.map_cons, List.append_assoc]
        rfl
      · calc n = n / i * i := (Nat.div_mul_cancel hdvd).symm
          _ = i ^ (e + 1) * n1 := by rw [h2, pow_succ]; ring
    · refine ⟨0, n, ?_, by simp, hn, fun hd => h (Nat.mod_eq_zero_of_dvd hd), fun h0 => by omega⟩
      have : ¬ (((n % i : Nat) : Int) = 0) := by exact_mod_cast h
      simp only [beq_iff_eq]
      rw [if_neg this]
      simp


/-- A divisor of `n` that is at most every prime factor of `n` is prime. -/
theorem prime_of_least_factor {i n : Nat} (hi : 2 ≤ i) (hdvd : i ∣ n)
    (hmin : ∀ q : Nat, q.Prime → q ∣ n → i ≤ q) : i.Prime := by
  have hq : i.minFac.Prime := Nat.minFac_prime (by omega)
  have h1 : i ≤ i.minFac := hmin _ hq ((Nat.minFac_dvd i).trans hdvd)
  have h2 : i.minFac ≤ i := Nat.minFac_le (by omega)
  have : i.minFac = i := le_antisymm h2 h1
  rw [← this]
  exact hq

/-- A number above 1 with no prime factor below `i` and smaller than `i * i` is prime. -/
theorem prime_of_no_small_factor {i n : Nat} (hn : 1 < n) (hsq : n < i * i)
    (hmin : ∀ q : Nat, q.Prime → q ∣ n → i ≤ q) : n.Prime := by
  by_contra hnp
  have h1 : n.minFac ^ 2 ≤ n := Nat.minFac_sq_le_self (by omega) hnp
  have h2 : i ≤ n.minFac := hmin _ (Nat.minFac_prime (by omega)) (Nat.minFac_dvd n)
  nlinarith

/-- Invariant of the outer loop of `prime_factors`: started at an odd `i >= 3` on a residual `n`
without prime factor below `i`, it ends and appends a sorted list of primes whose product times
the final residual is `n`, the final residual being 1 or a prime. -/
theorem prime_factors_odd_spec (bound : Nat) : ∀ (fuel i n : Nat) (fs : List Int),
    3 ≤ i → i % 2 = 1 → 0 < n → n < bound → (∀ q : Nat, q.Prime → q ∣ n → i ≤ q) →
    0 < fuel → (i * i ≤ n → n + 4 ≤ fuel + i) →
    ∃ (ext : List Nat) (n1 : Nat),
      prime_factors_odd bound fuel (i : Int) fs (n : Int)
        = some (fs ++ ext.map Nat.cast, (n1 : Int)) ∧
      ext.prod * n1 = n ∧ (∀ x ∈ ext, x.Prime ∧ i ≤ x) ∧ ext.Sorted (· ≤ ·) ∧
      (n1 = 1 ∨ (n1.Prime ∧ i ≤ n1 ∧ ∀ x ∈ ext, x ≤ n1)) := by
  intro fuel
  induction fuel with
  | zero => intro i n fs _ _ _ _ _ h0; omega
  | succ f ih =>
    intro i n fs hi hodd hn hb hmin _ hfuel
    rw [prime_factors_odd]
    by_cases hc : i * i ≤ n
    · have hcI : (i : Int) * i ≤ n := by exact_mod_cast hc
      rw [if_pos hcI]
      obtain ⟨e, m, hs1, hs2, hs3, hs4, hs5⟩ :=
        prime_factors_strip_spec i (by omega) bound fs n hn hb
      rw [hs1]
      simp only []
      have hmdvd : m ∣ n := ⟨i ^ e, by rw [hs2]; ring⟩
      have hmle : m ≤ n := Nat.le_of_dvd hn hmdvd
      have hfi := hfuel hc
      have hmin2 : ∀ q : Nat, q.Prime → q ∣ m → i + 2 ≤ q := by
        intro q hq hqm
        have h1 : i ≤ q := hmin q hq (hqm.trans hmdvd)
        have h2 : q ≠ i := by rintro rfl; exact hs4 hqm
        have h3 : q ≠ i + 1 := by
          intro h
          rcases hq.eq_two_or_odd with h' | h' <;> omega
        omega
      have hcast : (i : Int) + 2 = ((i + 2 : Nat) : Int) := by push_cast; rfl
      rw [hcast]
      obtain ⟨ext, n1, h1, h2, h3, h4, h5⟩ := ih (i + 2) m
        (fs ++ (List.replicate e i).map Nat.cast) (by omega) (by omega) hs3 (by omega) hmin2
        (by nlinarith) (fun _ => by omega)
      refine ⟨List.replicate e i ++ ext, n1, ?_, ?_, ?_, ?_, ?_⟩
      · rw [h1, List.map_append, List.append_assoc]
      · rw [List.prod_append, List.prod_replicate, mul_assoc, h2, hs2]
      · intro x hx
        rcases List.mem_append.mp hx with hx | hx
        · obtain ⟨he, rfl⟩ := List.mem_replicate.mp hx
          exact ⟨prime_of_least_factor (by omega) (hs5 (by omega)) hmin, le_rfl⟩
        · exact ⟨(h3 x hx).1, by have := (h3 x hx).2; omega⟩
      · rw [List.Sorted, List.pairwise_append]
        refine ⟨List.pairwise_replicate.mpr (Or.inr le_rfl), h4, ?_⟩
        intro a ha b hb'
        obtain ⟨_, rfl⟩ := List.mem_replicate.mp ha
        have := (h3 b hb').2
        omega
      · rcases h5 with h5 | ⟨h5, h6, h7⟩
        · exact Or.inl h5
        · refine Or.inr ⟨h5, by omega, ?_⟩
          intro x hx
          rcases List.mem_append.mp hx with hx | hx
          · obtain ⟨_, rfl⟩ := List.mem_replicate.mp hx
            omega
          · exact h7 x hx
    · have hcI : ¬ ((i : Int) * i ≤ n) := by exact_mod_cast hc
      rw [if_neg hcI]
      refine ⟨[], n, by simp, by simp, by simp, List.sorted_nil, ?_⟩
      by_cases h1 : n = 1
      · exact Or.inl h1
      · have hp : n.Prime := prime_of_no_small_factor (by omega) (by omega) hmin
        exact Or.inr ⟨hp, hmin n hp dvd_rfl, by simp⟩

/-- On every `n >= 1` the factorizer returns a sorted list of primes with product `n`. -/
theorem prime_factors_spec (n : Nat) (hn : 1 ≤ n) :
    ∃ fs : List Nat, prime_factors (n : Int) = some (fs.map Nat.cast) ∧
      (∀ p ∈ fs, p.Prime) ∧ fs.prod = n ∧ fs.Sorted (· ≤ ·) := by
  unfold prime_factors
  obtain ⟨e, m, hs1, hs2, hs3, hs4, hs5⟩ :=
    prime_factors_strip_spec 2 le_rfl ((n : Int).natAbs + 1) [] n hn (by simp)
  have hs1' : prime_factors_strip 2 ((n : Int).natAbs + 1) [] (n : Int)
      = some ([] ++ (List.replicate e 2).map Nat.cast, (m : Int)) := hs1
  rw [hs1']
  simp only []
  have hmdvd : m ∣ n := ⟨2 ^ e, by rw [hs2]; ring⟩
  have hmle : m ≤ n := Nat.le_of_dvd hn hmdvd
  have hmin : ∀ q : Nat, q.Prime → q ∣ m → 3 ≤ q := by
    intro q hq hqm
    have h2 : q ≠ 2 := by rintro rfl; exact hs4 hqm
    have := hq.two_le
    omega
  obtain ⟨ext, n1, h1, h2, h3, h4, h5⟩ := prime_factors_odd_spec ((n : Int).natAbs + 1)
    ((n : Int).natAbs + 1) 3 m ([] ++ (List.replicate e 2).map Nat.cast) le_rfl (by decide) hs3
    (by simp; omega) hmin (by omega) (fun _ => by simp; omega)
  have h1' : prime_factors_odd ((n : Int).natAbs + 1) ((n : Int).natAbs + 1) 3
      ([] ++ (List.replicate e 2).map Nat.cast) (m : Int)
      = some ([] ++ (List.replicate e 2).map Nat.cast ++ ext.map Nat.cast, (n1 : Int)) := h1
  rw [h1']
  simp only []
  have hsort : (List.replicate e 2 ++ ext).Sorted (· ≤ ·) := by
    rw [List.Sorted, List.pairwise_append]
    refine ⟨List.pairwise_replicate.mpr (Or.inr le_rfl), h4, ?_⟩
    intro a ha b hb
    obtain ⟨_, rfl⟩ := List.mem_replicate.mp ha
    have := (h3 b hb).2
    omega
  have hprime : ∀ p ∈ List.replicate e 2 ++ ext, p.Prime := by
    intro p hp
    rcases List.mem_append.mp hp with hp | hp
    · obtain ⟨_, rfl⟩ := List.mem_replicate.mp hp
      exact Nat.prime_two
    · exact (h3 p hp).1
  rcases h5 with h5 | ⟨h5, h6, h7⟩
  · subst h5
    refine ⟨List.replicate e 2 ++ ext, ?_, hprime, ?_, hsort⟩
    · simp
    · rw [List.prod_append, List.prod_replicate, hs2, ← h2]; ring
  · have hgt : ((n1 : Int) > 2) := by
      have : 3 ≤ n1 := h6
      exact_mod_cast this
    refine ⟨List.replicate e 2 ++ ext ++ [n1], ?_, ?_, ?_, ?_⟩
    · rw [if_pos hgt]
      simp
    · intro p hp
      rcases List.mem_append.mp hp with hp | hp
      · exact hprime p hp
      · rw [List.mem_singleton.mp hp]; exact h5
    · rw [List.prod_append, List.prod_append, List.prod_replicate, hs2, ← h2]; simp; ring
    · rw [List.Sorted, List.pairwise_append]
      refine ⟨hsort, List.pairwise_singleton _ _, ?_⟩
      intro a ha b hb
      rw [List.mem_singleton.mp hb]
      rcases List.mem_append.mp ha with ha | ha
      · obtain ⟨_, rfl⟩ := List.mem_replicate.mp ha
        omega
      · exact h7 a ha


/-- On every `n >= 1` the factorizer returns the sorted list of prime factors of `n`. -/
theorem prime_factors_eq_primeFactorsList (n : Nat) (hn : 1 ≤ n) :
    prime_factors (n : Int) = some (n.primeFactorsList.map Nat.cast) := by
  obtain ⟨fs, h1, h2, h3, h4⟩ := prime_factors_spec n hn
  have hperm : fs.Perm n.primeFactorsList := Nat.primeFactorsList_unique h3 h2
  have : fs = n.primeFactorsList :=
    List.eq_of_perm_of_sorted hperm h4 (Nat.primeFactorsList_sorted n)
  rw [h1, this]

/-- C6: for every `n >= 1`, `prime_factors(n)` returns the prime factors of `n` with
multiplicity in non-decreasing order: every element is prime, the product of the list is `n`
and the list is sorted; in particular `prime_factors(28) = [2, 2, 7]` and
`prime_factors(1) = []`. -/
theorem prime_factors_correct (n : Int) (hn : 1 ≤ n) :
    (∃ fs : List Int, prime_factors n = some fs ∧ (∀ q ∈ fs, Nat.Prime q.toNat) ∧
      fs.prod = n ∧ fs.Sorted (· ≤ ·) ∧ fs = n.toNat.primeFactorsList.map Nat.cast) ∧
    prime_factors 28 = some [2, 2, 7] ∧ prime_factors 1 = some [] := by
  refine ⟨?_, by decide, by decide⟩
  obtain ⟨m, rfl⟩ := Int.eq_ofNat_of_zero_le (by omega : 0 ≤ n)
  have hm : 1 ≤ m := by exact_mod_cast hn
  obtain ⟨fs, h1, h2, h3, h4⟩ := prime_factors_spec m hm
  have h5 := prime_factors_eq_primeFactorsList m hm
  refine ⟨fs.map Nat.cast, h1, ?_, ?_, ?_, ?_⟩
  · intro q hq
    obtain ⟨p, hp, rfl⟩ := List.mem_map.mp hq
    simpa using h2 p hp
  · rw [← h3]
    simp [List.prod_map_hom]
  · rw [List.Sorted, List.pairwise_map]
    exact h4.imp (fun h => by exact_mod_cast h)
  · rw [h1] at h5
    simpa using h5

theorem prime_factors_correct_witness :
    (∃ fs : List Int, prime_factors 360 = some fs ∧ (∀ q ∈ fs, Nat.Prime q.toNat) ∧
      fs.prod = 360 ∧ fs.Sorted (· ≤ ·) ∧
      fs = (360 : Int).toNat.primeFactorsList.map Nat.cast) ∧
    prime_factors 28 = some [2, 2, 7] ∧ prime_factors 1 = some [] :=
  prime_factors_correct 360 (by decide)

/-! ### LucasTester -/

/-- For a non-negative base `mod_pow` returns 1 exactly when the power is 1 in `ZMod n`. -/
theorem mod_pow_eq_one_iff (n : Nat) (hn : 2 ≤ n) (a : Int) (ha : 0 ≤ a) (k : Nat) :
    mod_pow a k n = 1 ↔ (a : ZMod n) ^ k = 1 := by
  have h := mod_pow_of_nonneg a k n ha (by omega) (by omega)
  rw [h, Int.toNat_ofNat]
  constructor
  · intro h1
    have h2 : ((a ^ k % (n : Int) : Int) : ZMod n) = ((1 : Int) : ZMod n) := by rw [h1]
    rw [ZMod.intCast_mod] at h2
    push_cast at h2
    exact h2
  · intro h1
    have h2 : ((a ^ k : Int) : ZMod n) = ((1 : Int) : ZMod n) := by
      push_cast
      exact h1
    rw [ZMod.intCast_eq_intCast_iff] at h2
    have h3 : a ^ k % (n : Int) = 1 % (n : Int) := h2
    rw [h3]
    exact Int.emod_eq_of_lt (by omega) (by omega)

/-- The flag of a Lucas trial stays true exactly when no factor gives the power 1. -/
theorem lucas_flag_eq_true (a n : Int) (fs : List Int) :
    lucas_flag a n fs = true ↔ ∀ f ∈ fs, mod_pow a ((n - 1).tdiv f) n ≠ 1 := by
  induction fs with
  | nil => simp [lucas_flag]
  | cons f rest ih =>
    rw [lucas_flag]
    by_cases h : mod_pow a ((n - 1).tdiv f) n = 1
    · simp [h]
    · simp [h, ih]

/-- On the factor list of `n - 1` the flag says that no power `a ^ ((n - 1) / q)`, `q` a prime
factor of `n - 1`, is 1 modulo `n`. -/
theorem lucas_flag_primeFactors (n : Nat) (hn : 3 ≤ n) (a : Int) (ha : 0 ≤ a) :
    lucas_flag a n ((n - 1).primeFactorsList.map Nat.cast) = true ↔
      ∀ q : Nat, q.Prime → q ∣ n - 1 → (a : ZMod n) ^ ((n - 1) / q) ≠ 1 := by
  rw [lucas_flag_eq_true]
  have e : (n : Int) - 1 = ((n - 1 : Nat) : Int) := by omega
  have key : ∀ q : Nat, mod_pow a (((n : Int) - 1).tdiv (q : Int)) n = 1 ↔
      (a : ZMod n) ^ ((n - 1) / q) = 1 := by
    intro q
    rw [e, ← Int.ofNat_tdiv]
    exact mod_pow_eq_one_iff n (by omega) a ha _
  constructor
  · intro h q hq hqd
    have hmem : (q : Int) ∈ (n - 1).primeFactorsList.map Nat.cast :=
      List.mem_map.mpr ⟨q, (Nat.mem_primeFactorsList (by omega)).mpr ⟨hq, hqd⟩, rfl⟩
    exact fun h1 => h _ hmem ((key q).mpr h1)
  · intro h f hf
    obtain ⟨q, hq, rfl⟩ := List.mem_map.mp hf
    have hq' := (Nat.mem_primeFactorsList (by omega)).mp hq
    exact fun h1 => h q hq'.1 hq'.2 ((key q).mp h1)

/-- The base of a Lucas trial lies in `[2, n - 1]`. -/
theorem lucas_base_bounds (n r : Int) (hn : 3 ≤ n) (hr : 0 ≤ r) :
    2 ≤ lucas_base n r ∧ lucas_base n r ≤ n - 1 := by
  unfold lucas_base
  have h1 : r.tmod (n - 2) = r % (n - 2) := Int.tmod_eq_emod hr (by omega)
  have h2 := Int.emod_nonneg r (by omega : n - 2 ≠ 0)
  have h3 := Int.emod_lt_of_pos r (by omega : 0 < n - 2)
  omega

/-- When the trial loop answers true, some base passed the Fermat check and kept the flag. -/
theorem lucas_trials_sound (n : Int) (fs : List Int) (rand : Nat → Int) :
    ∀ (remaining i : Nat), lucas_trials n fs rand remaining i = true →
      ∃ j, mod_pow (lucas_base n (rand j)) (n - 1) n = 1 ∧
        lucas_flag (lucas_base n (rand j)) n fs = true := by
  intro remaining
  induction remaining with
  | zero => intro i h; simp [lucas_trials] at h
  | succ k ih =>
    intro i h
    rw [lucas_trials] at h
    by_cases h1 : mod_pow (lucas_base n (rand i)) (n - 1) n = 1
    · by_cases h2 : lucas_flag (lucas_base n (rand i)) n fs = true
      · exact ⟨i, h1, h2⟩
      · simp only [h1, bne_self_eq_false, Bool.false_eq_true, if_false, h2] at h
        exact ih (i + 1) h
    · simp [h1] at h

/-- When every drawn base passes the Fermat check, the trial loop answers true exactly when some
trial keeps the flag. -/
theorem lucas_trials_of_fermat (n : Int) (fs : List Int) (rand : Nat → Int)
    (hf : ∀ j, mod_pow (lucas_base n (rand j)) (n - 1) n = 1) :
    ∀ (remaining i : Nat), lucas_trials n fs rand remaining i = true ↔
      ∃ j, i ≤ j ∧ j < i + remaining ∧ lucas_flag (lucas_base n (rand j)) n fs = true := by
  intro remaining
  induction remaining with
  | zero =>
    intro i
    simp only [lucas_trials, Bool.false_eq_true, false_iff, not_exists]
    intro j hj
    omega
  | succ k ih =>
    intro i
    rw [lucas_trials]
    simp only [hf i, bne_self_eq_false, Bool.false_eq_true, if_false]
    by_cases h2 : lucas_flag (lucas_base n (rand i)) n fs = true
    · simp only [h2, if_true, true_iff]
      exact ⟨i, le_rfl, by omega, h2⟩
    · rw [if_neg h2, ih (i + 1)]
      constructor
      · rintro ⟨j, h3, h4, h5⟩
        exact ⟨j, by omega, by omega, h5⟩
      · rintro ⟨j, h3, h4, h5⟩
        have : j ≠ i := by rintro rfl; exact h2 h5
        exact ⟨j, by omega, by omega, h5⟩

/-- On an odd `n >= 3` the Lucas test is its trial loop on the prime factors of `n - 1`. -/
theorem lucas_test_odd (n : Nat) (hn : 3 ≤ n) (hodd : n % 2 = 1) (rand : Nat → Int) :
    lucas_test n rand =
      some (lucas_trials n ((n - 1).primeFactorsList.map Nat.cast) rand 10 0) := by
  unfold lucas_test
  have h1 : ¬ (((n : Int) == 1) = true) := by simp only [beq_iff_eq]; omega
  have h2 : ¬ (((n : Int) == 2) = true) := by simp only [beq_iff_eq]; omega
  have h3 : ¬ (((n : Int).tmod 2 == 0) = true) := by
    rw [Int.tmod_eq_emod (by omega) (by decide)]
    simp only [beq_iff_eq]
    omega
  rw [if_neg h1, if_neg h2, if_neg h3]
  have e : (n : Int) - 1 = ((n - 1 : Nat) : Int) := by omega
  rw [e, prime_factors_eq_primeFactorsList (n - 1) (by omega)]

/-- A number accepted by `lucas_test` is prime (Lucas primality criterion). -/
theorem lucas_test_sound (n : Nat) (rand : Nat → Int) (hrand : ∀ j, 0 ≤ rand j)
    (h : lucas_test n rand = some true) : n.Prime := by
  by_cases h2 : n = 2
  · subst h2; exact Nat.prime_two
  by_cases hodd : n % 2 = 1
  · have hn1 : n ≠ 1 := by
      rintro rfl
      simp [lucas_test] at h
    have hn : 3 ≤ n := by omega
    rw [lucas_test_odd n hn hodd] at h
    obtain ⟨j, hj1, hj2⟩ := lucas_trials_sound _ _ _ _ _ (Option.some.inj h)
    have ha := (lucas_base_bounds n (rand j) (by omega) (hrand j)).1
    have e : (n : Int) - 1 = ((n - 1 : Nat) : Int) := by omega
    rw [e, mod_pow_eq_one_iff n (by omega) _ (by omega)] at hj1
    rw [lucas_flag_primeFactors n hn _ (by omega)] at hj2
    exact lucas_primality n _ hj1 hj2
  · exfalso
    have h3 : ((n : Int).tmod 2 == 0) = true := by
      rw [Int.tmod_eq_emod (by omega) (by decide)]
      simp only [beq_iff_eq]
      omega
    have h1 : ¬ (((n : Int) == 1) = true) := by simp only [beq_iff_eq]; omega
    have h2' : ¬ (((n : Int) == 2) = true) := by simp only [beq_iff_eq]; omega
    unfold lucas_test at h
    rw [if_neg h1, if_neg h2', if_pos h3] at h
    simp at h

/-! ### BailliePSWTester -/

/-- A trial of `isPrimeRM` always returns. -/
theorem millerTest_total (a d n : Int) (s fuel : Nat) (hd : 0 < d) (hds : d * 2 ^ s = n - 1)
    (hf : s < fuel) : ∃ b, millerTest fuel a d n = some b := by
  unfold millerTest
  by_cases h : (mod_pow a d n == 1 || mod_pow a d n == n - 1) = true
  · exact ⟨true, by simp only []; rw [if_pos h]⟩
  · obtain ⟨b, hb⟩ := millerTest_loop_terminates s fuel (mod_pow a d n) d n hd hds hf
    exact ⟨b, by simp only []; rw [if_neg h, hb]⟩

/-- The trial loop always returns when each trial does. -/
theorem isPrimeRM_trials_total (d n : Int) (draw : Nat → Int)
    (h : ∀ a, ∃ b, millerTest n.toNat a d n = some b) :
    ∀ (remaining i : Nat), ∃ b, isPrimeRM_trials d n draw remaining i = some b := by
  intro remaining
  induction remaining with
  | zero => intro i; exact ⟨true, rfl⟩
  | succ k ih =>
    intro i
    rw [isPrimeRM_trials]
    obtain ⟨b, hb⟩ := h (draw i)
    rw [hb]
    cases b with
    | false => exact ⟨false, rfl⟩
    | true => exact ih (i + 1)

/-- The Miller-Rabin driver returns on every input. -/
theorem isPrimeRM_total (n k : Int) (draw : Nat → Int) : ∃ b, isPrimeRM n k draw = some b := by
  by_cases hn : 5 ≤ n
  · rw [isPrimeRM_eq_trials n k draw hn]
    unfold isPrimeRM_trials_of
    obtain ⟨d, s, hd1, hd2, hd3, _⟩ :=
      isPrimeRM_halve_spec (n - 1).toNat (n - 1) (by omega) le_rfl
    rw [hd1]
    exact isPrimeRM_trials_total d n draw
      (fun a => millerTest_total a d n s _ hd3 hd2.symm (pow_two_le_lt hd3 hd2.symm)) _ _
  · unfold isPrimeRM
    by_cases h1 : (n ≤ 1 || n == 4) = true
    · exact ⟨false, by rw [if_pos h1]⟩
    · have h3 : n ≤ 3 := by
        simp only [Bool.or_eq_true, decide_eq_true_eq, beq_iff_eq, not_or] at h1
        omega
      exact ⟨true, by rw [if_neg h1, if_pos h3]⟩

/-- The table loop answers true only on a member of the table. -/
theorem baillie_sieve_true (num : Int) : ∀ l : List Int,
    baillie_sieve num l = some true → num ∈ l := by
  intro l
  induction l with
  | nil => intro h; simp [baillie_sieve] at h
  | cons kp rest ih =>
    intro h
    rw [baillie_sieve] at h
    by_cases h1 : num = kp
    · simp [h1]
    · by_cases h2 : num.tmod kp = 0
      · simp [h1, h2] at h
      · simp only [beq_iff_eq, h1, h2, if_false] at h
        exact List.mem_cons_of_mem _ (ih h)

/-- The table loop runs to its end exactly when the number is neither equal to nor divisible by a
table entry. -/
theorem baillie_sieve_none (num : Int) : ∀ l : List Int,
    baillie_sieve num l = none ↔ ∀ kp ∈ l, num ≠ kp ∧ num.tmod kp ≠ 0 := by
  intro l
  induction l with
  | nil => simp [baillie_sieve]
  | cons kp rest ih =>
    rw [baillie_sieve]
    by_cases h1 : num = kp
    · simp [h1]
    · by_cases h2 : num.tmod kp = 0
      · simp [h1, h2]
      · simp only [beq_iff_eq, h1, h2, if_false, ih, List.mem_cons, forall_eq_or_imp, ne_eq,
          not_false_eq_true, and_self, true_and]

/-- The entries of `known_primes` are primes between 2 and 47. -/
theorem known_primes_prime : ∀ kp ∈ known_primes, Nat.Prime kp.toNat ∧ 2 ≤ kp ∧ kp ≤ 47 := by
  intro kp h
  simp only [known_primes, List.mem_cons, List.mem_singleton, List.not_mem_nil, or_false] at h
  rcases h with h | h | h | h | h | h | h | h | h | h | h | h | h | h | h <;> subst h <;>
    refine ⟨?_, by decide, by decide⟩ <;> simp <;> norm_num

/-- C4: `baillie_test` never accepts a composite: for every composite `c >= 4` and every
outcome of the draws of `millerTest` and `lucas_test`, `baillie_test(c)` returns false. -/
theorem baillie_test_rejects_composite (c : Nat) (hc : 4 ≤ c) (hcomp : ¬ c.Prime)
    (draw : Nat → Int) (rand : Nat → Int) (hrand : ∀ j, 0 ≤ rand j) :
    baillie_test c draw rand = some false := by
  unfold baillie_test
  cases hs : baillie_sieve (c : Int) known_primes with
  | some v =>
    cases v with
    | false => rfl
    | true =>
      exfalso
      have hmem := baillie_sieve_true _ _ hs
      have := (known_primes_prime _ hmem).1
      rw [Int.toNat_ofNat] at this
      exact hcomp this
  | none =>
    obtain ⟨b, hb⟩ := isPrimeRM_total c 2 draw
    have h2 := ((baillie_sieve_none _ _).mp hs 2 (by decide)).2
    rw [Int.tmod_eq_emod (by omega) (by decide)] at h2
    simp only []
    rw [hb]
    cases b with
    | false => rfl
    | true =>
      simp only []
      rw [lucas_test_odd c (by omega) (by omega)]
      cases ht : lucas_trials c ((c - 1).primeFactorsList.map Nat.cast) rand 10 0 with
      | false => rfl
      | true =>
        exfalso
        apply hcomp
        apply lucas_test_sound c rand hrand
        rw [lucas_test_odd c (by omega) (by omega), ht]

theorem baillie_test_rejects_composite_witness :
    baillie_test (2809 : Nat) (fun i => 2 + (i : Int)) (fun j => 7 * (j : Int)) = some false :=
  baillie_test_rejects_composite 2809 (by decide) (by norm_num) _ _
    (fun j => by positivity)

/-- A prime above 47 passes the table loop without a verdict. -/
theorem baillie_sieve_large_prime (p : Nat) (hp : p.Prime) (h47 : 47 < p) :
    baillie_sieve (p : Int) known_primes = none := by
  rw [baillie_sieve_none]
  intro kp hkp
  obtain ⟨h1, h2, h3⟩ := known_primes_prime kp hkp
  refine ⟨by omega, ?_⟩
  obtain ⟨q, rfl⟩ := Int.eq_ofNat_of_zero_le (by omega : 0 ≤ kp)
  rw [Int.toNat_ofNat] at h1
  rw [← Int.ofNat_tmod]
  intro h
  have h0 : p % q = 0 := by exact_mod_cast h
  have hdvd : q ∣ p := Nat.dvd_of_mod_eq_zero h0
  rcases (Nat.dvd_prime hp).mp hdvd with h' | h'
  · exact h1.one_lt.ne' h'
  · omega

/-- Modulo an odd prime every drawn base passes the Fermat check. -/
theorem lucas_fermat_prime (p : Nat) (hp : p.Prime) (hp3 : 3 ≤ p) (r : Int) (hr : 0 ≤ r) :
    mod_pow (lucas_base p r) ((p : Int) - 1) p = 1 := by
  obtain ⟨h1, h2⟩ := lucas_base_bounds p r (by omega) hr
  have e : (p : Int) - 1 = ((p - 1 : Nat) : Int) := by omega
  rw [e, mod_pow_eq_one_iff p (by omega) _ (by omega)]
  haveI : Fact p.Prime := ⟨hp⟩
  apply ZMod.pow_card_sub_one_eq_one
  rw [Ne, ZMod.intCast_zmod_eq_zero_iff_dvd]
  intro hdvd
  have := Int.le_of_dvd (by omega) hdvd
  omega

/-- Modulo an odd prime a base keeps the flag exactly when it is a primitive root. -/
theorem lucas_flag_iff_orderOf (p : Nat) (hp : p.Prime) (hp3 : 3 ≤ p) (r : Int) (hr : 0 ≤ r) :
    lucas_flag (lucas_base p r) p ((p - 1).primeFactorsList.map Nat.cast) = true ↔
      orderOf ((lucas_base p r : Int) : ZMod p) = p - 1 := by
  obtain ⟨h1, h2⟩ := lucas_base_bounds p r (by omega) hr
  have hf := lucas_fermat_prime p hp hp3 r hr
  have e : (p : Int) - 1 = ((p - 1 : Nat) : Int) := by omega
  rw [e, mod_pow_eq_one_iff p (by omega) _ (by omega)] at hf
  rw [lucas_flag_primeFactors p hp3 _ (by omega)]
  constructor
  · intro h
    exact orderOf_eq_of_pow_and_pow_div_prime (by omega) hf h
  · intro h q hq hqd hpow
    have hdvd := orderOf_dvd_of_pow_eq_one hpow
    rw [h] at hdvd
    have hpos : 0 < (p - 1) / q := Nat.div_pos (Nat.le_of_dvd (by omega) hqd) hq.pos
    have hle := Nat.le_of_dvd hpos hdvd
    have hlt : (p - 1) / q < p - 1 := Nat.div_lt_self (by omega) hq.one_lt
    omega

/-- On an odd prime `lucas_test` returns, and answers true exactly when one of its ten bases is a
primitive root. -/
theorem lucas_test_odd_prime (p : Nat) (hp : p.Prime) (hp3 : 3 ≤ p) (rand : Nat → Int)
    (hrand : ∀ j, 0 ≤ rand j) :
    ∃ b, lucas_test p rand = some b ∧
      (b = true ↔ ∃ j, j < 10 ∧ orderOf ((lucas_base p (rand j) : Int) : ZMod p) = p - 1) := by
  have hodd : p % 2 = 1 := by
    rcases hp.eq_two_or_odd with h | h <;> omega
  refine ⟨_, lucas_test_odd p hp3 hodd rand, ?_⟩
  rw [lucas_trials_of_fermat _ _ _ (fun j => lucas_fermat_prime p hp hp3 _ (hrand j))]
  constructor
  · rintro ⟨j, _, h2, h3⟩
    exact ⟨j, by omega, (lucas_flag_iff_orderOf p hp hp3 _ (hrand j)).mp h3⟩
  · rintro ⟨j, h2, h3⟩
    exact ⟨j, Nat.zero_le _, by omega, (lucas_flag_iff_orderOf p hp hp3 _ (hrand j)).mpr h3⟩

/-- The entries of `table_primes` are prime. -/
theorem table_primes_prime : ∀ p ∈ table_primes, p.Prime := by
  intro p h
  simp only [table_primes, List.mem_cons, List.mem_singleton, List.not_mem_nil, or_false] at h
  rcases h with h | h | h | h | h | h | h | h | h | h | h | h | h | h | h | h | h | h | h | h |
    h | h | h | h | h <;> subst h <;> norm_num

/-- The table loop answers true on the primes up to 47. -/
theorem baillie_sieve_table : ∀ p ∈ table_primes, p ≤ 47 →
    baillie_sieve (p : Int) known_primes = some true := by
  decide

/-- C5, as stated, fails: 53 is a prime of the table and the Miller-Rabin witness 2 lies in
`[2, 49]`, yet `baillie_test(53)` returns false when every `rand()` call returns 2, because
the base 4 is not a primitive root modulo 53. -/
theorem baillie_test_table_prime_counterexample :
    53 ∈ table_primes ∧ lucas_base 53 2 = 4 ∧
      baillie_test 53 (fun _ => 2) (fun _ => 2) = some false := by
  decide

/-- C5, amended: for every prime `p` of the table `2, 3, 5, ..., 97` and every outcome of the
draws, `baillie_test(p)` returns true when `p <= 47`; for the table primes above 47, with the
Miller-Rabin witnesses in `[2, p - 4]`, it returns true exactly when at least one of the ten
bases drawn by `lucas_test` is a primitive root modulo `p`, and false exactly when none is. -/
theorem baillie_test_table_prime (p : Nat) (hp : p ∈ table_primes) (draw : Nat → Int)
    (rand : Nat → Int) (hrand : ∀ j, 0 ≤ rand j) :
    (p ≤ 47 → baillie_test p draw rand = some true) ∧
    (47 < p → (∀ i : Nat, i < 2 → 2 ≤ draw i ∧ draw i ≤ (p : Int) - 4) →
      (baillie_test p draw rand = some true ↔
        ∃ j, j < 10 ∧ orderOf ((lucas_base p (rand j) : Int) : ZMod p) = p - 1) ∧
      (baillie_test p draw rand = some false ↔
        ∀ j, j < 10 → orderOf ((lucas_base p (rand j) : Int) : ZMod p) ≠ p - 1)) := by
  have hprime := table_primes_prime p hp
  constructor
  · intro h47
    unfold baillie_test
    rw [baillie_sieve_table p hp h47]
  · intro h47 hdraw
    have hmr : isPrimeRM p 2 draw = some true := by
      rw [isPrimeRM_eq_trials _ _ _ (by omega)]
      exact isPrimeRM_prime_ge_five p hprime (by omega) 2 draw (fun i hi => hdraw i (by omega))
    obtain ⟨b, hb1, hb2⟩ := lucas_test_odd_prime p hprime (by omega) rand hrand
    have hbt : baillie_test p draw rand = some b := by
      unfold baillie_test
      rw [baillie_sieve_large_prime p hprime h47]
      simp only []
      rw [hmr]
      simp only []
      rw [hb1]
      cases b <;> rfl
    rw [hbt]
    constructor
    · simp only [Option.some.injEq]
      exact hb2
    · cases b with
      | false =>
        simp only [true_iff]
        intro j hj hord
        exact absurd (hb2.mpr ⟨j, hj, hord⟩) (by simp)
      | true =>
        simp only [Option.some.injEq, Bool.true_eq_false, false_iff, not_forall]
        obtain ⟨j, hj, hord⟩ := hb2.mp rfl
        exact ⟨j, hj, fun h => h hord⟩

theorem baillie_test_table_prime_witness :
    ((53 : Nat) ≤ 47 → baillie_test (53 : Nat) (fun _ => 3) (fun _ => 0) = some true) ∧
    (47 < (53 : Nat) →
      (∀ i : Nat, i < 2 → (2 : Int) ≤ (fun _ => 3) i ∧ (fun _ => 3) i ≤ ((53 : Nat) : Int) - 4) →
      (baillie_test (53 : Nat) (fun _ => 3) (fun _ => 0) = some true ↔
        ∃ j, j < 10 ∧
          orderOf ((lucas_base (53 : Nat) ((fun _ => 0) j) : Int) : ZMod 53) = 53 - 1) ∧
      (baillie_test (53 : Nat) (fun _ => 3) (fun _ => 0) = some false ↔
        ∀ j, j < 10 →
          orderOf ((lucas_base (53 : Nat) ((fun _ => 0) j) : Int) : ZMod 53) ≠ 53 - 1)) :=
  baillie_test_table_prime 53 (by decide) (fun _ => 3) (fun _ => 0) (fun _ => le_rfl)

/-! ### PrimeGenerator -/

/-- The candidate, for a non-negative sample and `bits = k + 1`, as a bitwise or of naturals. -/
theorem candidate_of_natCast (k S : Nat) :
    candidate_of ((k : Int) + 1) (S : Int) = ((S ||| (2 ^ k ||| 1) : Nat) : Int) := by
  unfold candidate_of
  rw [add_sub_cancel_right, Int.one_shiftLeft]
  rfl

/-- The candidate built from a sample of `[2 ^ (bits - 1), 2 ^ bits - 1]` stays in that range and
is odd. -/
theorem candidate_of_bounds (bits s : Int) (hb : 2 ≤ bits)
    (hs1 : 2 ^ (bits - 1).toNat ≤ s) (hs2 : s ≤ 2 ^ bits.toNat - 1) :
    2 ^ (bits - 1).toNat ≤ candidate_of bits s ∧ candidate_of bits s ≤ 2 ^ bits.toNat - 1 ∧
      candidate_of bits s % 2 = 1 := by
  obtain ⟨k, hk⟩ := Int.eq_ofNat_of_zero_le (by omega : 0 ≤ bits - 1)
  have hbits : bits = (k : Int) + 1 := by omega
  subst hbits
  have hpos : (0 : Int) < 2 ^ k := by positivity
  have e1 : ((k : Int) + 1 - 1).toNat = k := by simp
  have e2 : ((k : Int) + 1).toNat = k + 1 := by omega
  rw [e1] at hs1 ⊢
  rw [e2] at hs2 ⊢
  obtain ⟨S, rfl⟩ := Int.eq_ofNat_of_zero_le (by omega : 0 ≤ s)
  rw [candidate_of_natCast]
  have hS1 : 2 ^ k ≤ S := by exact_mod_cast hs1
  have hS2 : S < 2 ^ (k + 1) := by
    have : (S : Int) < 2 ^ (k + 1) := by omega
    exact_mod_cast this
  have hlow : S ≤ S ||| (2 ^ k ||| 1) :=
    Nat.le_of_testBit (fun i hi => by rw [Nat.testBit_or, hi]; rfl)
  have hmask : 2 ^ k ||| 1 < 2 ^ (k + 1) :=
    Nat.or_lt_two_pow (Nat.pow_lt_pow_right (by decide) (by omega))
      (Nat.one_lt_two_pow (by omega))
  have hhigh : S ||| (2 ^ k ||| 1) < 2 ^ (k + 1) := Nat.or_lt_two_pow hS2 hmask
  have hodd : (S ||| (2 ^ k ||| 1)) % 2 = 1 := by
    rw [Nat.or_mod_two_eq_one, Nat.or_mod_two_eq_one]
    exact Or.inr (Or.inr rfl)
  refine ⟨?_, ?_, ?_⟩
  · have : 2 ^ k ≤ S ||| (2 ^ k ||| 1) := le_trans hS1 hlow
    exact_mod_cast this
  · have : ((S ||| (2 ^ k ||| 1) : Nat) : Int) < 2 ^ (k + 1) := by exact_mod_cast hhigh
    omega
  · omega

/-- The generator loop returns `v` exactly when `v` is the first candidate, within the fuel, that
`isPrimeRM` accepts. -/
theorem generate_prime_loop_returned (bits : Int) (sample : Nat → Int)
    (draw : Nat → Nat → Int) : ∀ (fuel i0 : Nat) (v : Int),
    generate_prime_loop bits sample draw fuel i0 = Outcome.returned v ↔
      ∃ i, i0 ≤ i ∧ i < i0 + fuel ∧ v = candidate_of bits (sample i) ∧
        isPrimeRM (candidate_of bits (sample i)) 50 (draw i) = some true ∧
        ∀ j, i0 ≤ j → j < i →
          isPrimeRM (candidate_of bits (sample j)) 50 (draw j) = some false := by
  intro fuel
  induction fuel with
  | zero =>
    intro i0 v
    rw [generate_prime_loop]
    constructor
    · intro h; cases h
    · rintro ⟨i, h1, h2, _⟩
      omega
  | succ f ih =>
    intro i0 v
    rw [generate_prime_loop]
    cases h : isPrimeRM (candidate_of bits (sample i0)) 50 (draw i0) with
    | none =>
      constructor
      · intro h'; cases h'
      · rintro ⟨i, h1, h2, h3, h4, h5⟩
        rcases Nat.eq_or_lt_of_le h1 with e | e
        · subst e; rw [h] at h4; simp at h4
        · have := h5 i0 le_rfl e
          rw [h] at this; simp at this
    | some b =>
      cases b with
      | true =>
        simp only [Outcome.returned.injEq]
        constructor
        · intro hv
          exact ⟨i0, le_rfl, by omega, hv.symm, h, fun j h1 h2 => by omega⟩
        · rintro ⟨i, h1, h2, h3, h4, h5⟩
          rcases Nat.eq_or_lt_of_le h1 with e | e
          · subst e; exact h3.symm
          · have := h5 i0 le_rfl e
            rw [h] at this; simp at this
      | false =>
        simp only []
        rw [ih (i0 + 1) v]
        constructor
        · rintro ⟨i, h1, h2, h3, h4, h5⟩
          refine ⟨i, by omega, by omega, h3, h4, fun j hj1 hj2 => ?_⟩
          rcases Nat.eq_or_lt_of_le hj1 with e | e
          · subst e; exact h
          · exact h5 j e hj2
        · rintro ⟨i, h1, h2, h3, h4, h5⟩
          have hne : i ≠ i0 := by
            rintro rfl
            rw [h] at h4; simp at h4
          exact ⟨i, by omega, by omega, h3, h4, fun j hj1 hj2 => h5 j (by omega) hj2⟩

/-- C7: for every bit length `b` with `2 <= b <= 62` and every sample drawn in
`[2^(b-1), 2^b - 1]`, the candidate `s | 2^(b-1) | 1` lies in `[2^(b-1), 2^b - 1]` and is odd,
and `generate_prime(b)` returns exactly the first candidate on which `isPrimeRM(candidate, 50)`
returned true; hence every value it returns is in that range, odd, and passed
`isPrimeRM(value, 50)`. -/
theorem generate_prime_spec (bits : Int) (hb : 2 ≤ bits) (hb62 : bits ≤ 62)
    (sample : Nat → Int)
    (hs : ∀ i, 2 ^ (bits - 1).toNat ≤ sample i ∧ sample i ≤ 2 ^ bits.toNat - 1)
    (draw : Nat → Nat → Int) (fuel : Nat) :
    (∀ i, 2 ^ (bits - 1).toNat ≤ candidate_of bits (sample i) ∧
      candidate_of bits (sample i) ≤ 2 ^ bits.toNat - 1 ∧
      candidate_of bits (sample i) % 2 = 1) ∧
    (∀ v, generate_prime fuel bits sample draw = Outcome.returned v ↔
      ∃ i, i < fuel ∧ v = candidate_of bits (sample i) ∧
        isPrimeRM (candidate_of bits (sample i)) 50 (draw i) = some true ∧
        ∀ j, j < i → isPrimeRM (candidate_of bits (sample j)) 50 (draw j) = some false) ∧
    (∀ v, generate_prime fuel bits sample draw = Outcome.returned v →
      2 ^ (bits - 1).toNat ≤ v ∧ v ≤ 2 ^ bits.toNat - 1 ∧ v % 2 = 1 ∧
        ∃ i, isPrimeRM v 50 (draw i) = some true) := by
  have hcand := fun i => candidate_of_bounds bits (sample i) hb (hs i).1 (hs i).2
  have hiff : ∀ v, generate_prime fuel bits sample draw = Outcome.returned v ↔
      ∃ i, i < fuel ∧ v = candidate_of bits (sample i) ∧
        isPrimeRM (candidate_of bits (sample i)) 50 (draw i) = some true ∧
        ∀ j, j < i → isPrimeRM (candidate_of bits (sample j)) 50 (draw j) = some false := by
    intro v
    unfold generate_prime
    rw [if_pos (by omega : bits > 1), generate_prime_loop_returned]
    constructor
    · rintro ⟨i, _, h2, h3, h4, h5⟩
      exact ⟨i, by omega, h3, h4, fun j hj => h5 j (Nat.zero_le _) hj⟩
    · rintro ⟨i, h2, h3, h4, h5⟩
      exact ⟨i, Nat.zero_le _, by omega, h3, h4, fun j _ hj => h5 j hj⟩
  refine ⟨hcand, hiff, ?_⟩
  intro v hv
  obtain ⟨i, _, h2, h3, _⟩ := (hiff v).mp hv
  have := hcand i
  rw [← h2] at this h3
  exact ⟨this.1, this.2.1, this.2.2, i, h3⟩

/-- A run of `generate_prime(4)` that rejects 9 twice and returns 11. -/
theorem generate_prime_returns_eleven :
    generate_prime 3 4 (fun i => 8 + (i : Int) % 8) (fun _ _ => 2) = Outcome.returned 11 := by
  decide

theorem generate_prime_spec_witness :
    (2 : Int) ^ ((4 : Int) - 1).toNat ≤ 11 ∧ (11 : Int) ≤ 2 ^ (4 : Int).toNat - 1 ∧
      (11 : Int) % 2 = 1 ∧ ∃ i : Nat, isPrimeRM 11 50 ((fun _ _ => 2) i) = some true :=
  (generate_prime_spec 4 (by decide) (by decide) (fun i => 8 + (i : Int) % 8)
    (fun i => by constructor <;> simp <;> omega) (fun _ _ => 2) 3).2.2 11
    generate_prime_returns_eleven

/-! ### 64-bit arithmetic in `mod_pow` -/

/-- A value of the signed 64-bit range is not changed by wrap-around. -/
theorem wrap64_of_range (x : Int) (h1 : -2 ^ 63 ≤ x) (h2 : x < 2 ^ 63) : wrap64 x = x := by
  unfold wrap64
  rw [Int.emod_eq_of_lt (by omega) (by omega)]
  ring

/-- The truncated remainder by a positive modulus is smaller than the modulus in absolute
value. -/
theorem abs_tmod_lt (x : Int) {m : Int} (hm : 0 < m) : |x.tmod m| < m :=
  abs_lt.mpr ⟨neg_lt_tmod x hm, Int.tmod_lt_of_pos x hm⟩

/-- The product of two values of absolute value at most 3037000499, the integer square root of
`2 ^ 63`, fits in 64 bits. -/
theorem product_in_range (r b : Int) (hr : |r| ≤ 3037000499) (hb : |b| ≤ 3037000499) :
    -2 ^ 63 ≤ r * b ∧ r * b < 2 ^ 63 := by
  have h1 : |r * b| ≤ 3037000499 * 3037000499 := by
    rw [abs_mul]
    exact mul_le_mul hr hb (abs_nonneg b) (by norm_num)
  have h2 := abs_le.mp h1
  constructor
  · linarith [h2.1]
  · linarith [h2.2]

/-- Invariant of the loop of `mod_pow` under a modulus of at most 3037000500: with `result` and
`base` of absolute value at most 3037000499, the wrap-around loop and the exact loop agree and
every product stays in the signed 64-bit range. -/
theorem mod_pow64_loop_eq : ∀ (fuel : Nat) (r b e m : Int), 0 < m → m ≤ 3037000500 →
    |r| ≤ 3037000499 → |b| ≤ 3037000499 →
    mod_pow64_loop fuel r b e m = mod_pow_loop fuel r b e m ∧
      ∀ p ∈ mod_pow_products fuel r b e m, -2 ^ 63 ≤ p ∧ p < 2 ^ 63 := by
  intro fuel
  induction fuel with
  | zero =>
    intro r b e m _ _ _ _
    exact ⟨rfl, by simp [mod_pow_products]⟩
  | succ f ih =>
    intro r b e m hm0 hm hr hb
    rw [mod_pow64_loop, mod_pow_loop, mod_pow_products]
    by_cases he : e > 0
    · rw [if_pos he, if_pos he, if_pos he]
      have hrb := product_in_range r b hr hb
      have hbb := product_in_range b b hb hb
      rw [wrap64_of_range _ hrb.1 hrb.2, wrap64_of_range _ hbb.1 hbb.2]
      have hlt : ∀ x : Int, |x.tmod m| ≤ 3037000499 := by
        intro x
        have := abs_tmod_lt x hm0
        omega
      have hb1 : |(b * b).tmod m| ≤ 3037000499 := hlt _
      have hr1 : |if e.tmod 2 == 1 then (r * b).tmod m else r| ≤ 3037000499 := by
        split
        · exact hlt _
        · exact hr
      obtain ⟨h1, h2⟩ := ih _ _ (e.tdiv 2) m hm0 hm hr1 hb1
      refine ⟨h1, ?_⟩
      intro p hp
      simp only [List.mem_append, List.mem_cons] at hp
      rcases hp with hp | hp | hp
      · split at hp
        · rw [List.mem_singleton.mp hp]; exact hrb
        · simp at hp
      · rw [hp]; exact hbb
      · exact h2 p hp
    · rw [if_neg he, if_neg he, if_neg he]
      exact ⟨rfl, by simp⟩

/-- Under a modulus of at most 3037000500 the 64-bit `mod_pow` is the exact one, for every base
and exponent. -/
theorem mod_pow64_eq (base exponent modulus : Int) (hm0 : 0 < modulus)
    (hm : modulus ≤ 3037000500) :
    mod_pow64 base exponent modulus = mod_pow base exponent modulus := by
  have hbase : |base.tmod modulus| ≤ 3037000499 := by
    have := abs_tmod_lt base hm0
    omega
  have hone : |(1 : Int)| ≤ 3037000499 := by norm_num
  exact (mod_pow64_loop_eq exponent.toNat 1 (base.tmod modulus) exponent modulus hm0 hm hone
    hbase).1

/-- C11: for every modulus with `0 < modulus <= 2^31`, every signed 64-bit base and every
exponent `>= 0`, no product `result * base` or `base * base` computed by `mod_pow` leaves the
signed 64-bit range, and the result computed with 64-bit wrap-around arithmetic equals the
result computed with exact integers. -/
theorem mod_pow_no_overflow (base exponent modulus : Int) (hm0 : 0 < modulus)
    (hm : modulus ≤ 2 ^ 31) (hb1 : -2 ^ 63 ≤ base) (hb2 : base < 2 ^ 63) (he : 0 ≤ exponent) :
    (∀ p ∈ mod_pow_products exponent.toNat 1 (base.tmod modulus) exponent modulus,
        -2 ^ 63 ≤ p ∧ p < 2 ^ 63) ∧
      mod_pow64 base exponent modulus = mod_pow base exponent modulus := by
  have hm2 : modulus ≤ 3037000500 := le_trans hm (by norm_num)
  have hbase : |base.tmod modulus| ≤ 3037000499 := by
    have := abs_tmod_lt base hm0
    omega
  have hone : |(1 : Int)| ≤ 3037000499 := by norm_num
  obtain ⟨h1, h2⟩ :=
    mod_pow64_loop_eq exponent.toNat 1 (base.tmod modulus) exponent modulus hm0 hm2 hone hbase
  exact ⟨h2, h1⟩

theorem mod_pow_no_overflow_witness :
    (∀ p ∈ mod_pow_products (1000003 : Int).toNat 1
        ((-9223372036854775808 : Int).tmod 2147483648) 1000003 2147483648,
        -2 ^ 63 ≤ p ∧ p < 2 ^ 63) ∧
      mod_pow64 (-9223372036854775808) 1000003 2147483648
        = mod_pow (-9223372036854775808) 1000003 2147483648 :=
  mod_pow_no_overflow (-9223372036854775808) 1000003 2147483648 (by decide) (by decide)
    (by decide) (by decide) (by decide)

/-- C10, amended: for every signed 64-bit base, negative ones included, every exponent `>= 0`
and every modulus with `1 < modulus <= 3037000500`, the bound under which no product
overflows, `mod_pow` computed in 64-bit arithmetic returns the truncated remainder (the C++
`%`) of `base ^ exponent` by `modulus`: a value congruent to `base ^ exponent` modulo
`modulus`, strictly between `-modulus` and `modulus`, and non-negative when `base` is. -/
theorem mod_pow_truncated (base exponent modulus : Int) (hb1 : -2 ^ 63 ≤ base)
    (hb2 : base < 2 ^ 63) (he : 0 ≤ exponent) (hm : 1 < modulus)
    (hm2 : modulus ≤ 3037000500) :
    mod_pow64 base exponent modulus = (base ^ exponent.toNat).tmod modulus ∧
      mod_pow64 base exponent modulus ≡ base ^ exponent.toNat [ZMOD modulus] ∧
      -modulus < mod_pow64 base exponent modulus ∧
      mod_pow64 base exponent modulus < modulus ∧
      (0 ≤ base → 0 ≤ mod_pow64 base exponent modulus) := by
  have key : mod_pow64 base exponent modulus = (base ^ exponent.toNat).tmod modulus := by
    rw [mod_pow64_eq base exponent modulus (by omega) hm2, mod_pow_eq]
    by_cases h : 0 < exponent
    · rw [if_pos h]
    · rw [if_neg h]
      have h0 : exponent = 0 := by omega
      rw [h0, Int.toNat_zero, pow_zero]
      exact (Int.tmod_eq_of_lt (by omega) hm).symm
  rw [key]
  exact ⟨rfl, tmod_modEq _ _, neg_lt_tmod _ (by omega), Int.tmod_lt_of_pos _ (by omega),
    fun hb => Int.tmod_nonneg _ (pow_nonneg hb _)⟩

theorem mod_pow_truncated_witness :
    mod_pow64 (-7) 3 5 = ((-7) ^ (3 : Int).toNat).tmod 5 ∧
      mod_pow64 (-7) 3 5 ≡ (-7) ^ (3 : Int).toNat [ZMOD 5] ∧
      -5 < mod_pow64 (-7) 3 5 ∧ mod_pow64 (-7) 3 5 < 5 ∧
      ((0 : Int) ≤ -7 → 0 ≤ mod_pow64 (-7) 3 5) :=
  mod_pow_truncated (-7) 3 5 (by decide) (by decide) (by decide) (by decide) (by decide)

/-! ### Early returns, assertion and table -/

/-- C12: for every `k` and whatever the draws would be, `isPrimeRM(n, k)` returns false when
`n <= 1` or `n = 4`, and returns true when `n = 2` or `n = 3`. -/
theorem isPrimeRM_early_returns (n k : Int) (draw : Nat → Int) :
    (n ≤ 1 ∨ n = 4 → isPrimeRM n k draw = some false) ∧
      (n = 2 ∨ n = 3 → isPrimeRM n k draw = some true) := by
  constructor
  · intro h
    unfold isPrimeRM
    have hc : (n ≤ 1 || n == 4) = true := by
      simp only [Bool.or_eq_true, decide_eq_true_eq, beq_iff_eq]
      exact h
    rw [if_pos hc]
  · intro h
    unfold isPrimeRM
    have hc : ¬ ((n ≤ 1 || n == 4) = true) := by
      simp only [Bool.or_eq_true, decide_eq_true_eq, beq_iff_eq, not_or]
      omega
    rw [if_neg hc, if_pos (by omega)]

theorem isPrimeRM_early_returns_witness :
    isPrimeRM 4 7 (fun _ => 2) = some false ∧ isPrimeRM 3 7 (fun _ => 2) = some true :=
  ⟨(isPrimeRM_early_returns 4 7 (fun _ => 2)).1 (Or.inr rfl),
    (isPrimeRM_early_returns 3 7 (fun _ => 2)).2 (Or.inr rfl)⟩

/-- The loop of `generate_prime` never ends in an assertion failure. -/
theorem generate_prime_loop_no_assert (bits : Int) (sample : Nat → Int)
    (draw : Nat → Nat → Int) : ∀ (fuel i : Nat),
    generate_prime_loop bits sample draw fuel i ≠ Outcome.assertion_failed := by
  intro fuel
  induction fuel with
  | zero =>
    intro i h
    rw [generate_prime_loop] at h
    cases h
  | succ f ih =>
    intro i h
    rw [generate_prime_loop] at h
    cases hc : isPrimeRM (candidate_of bits (sample i)) 50 (draw i) with
    | none => rw [hc] at h; cases h
    | some b =>
      rw [hc] at h
      cases b with
      | true => cases h
      | false => exact ih (i + 1) h

/-- C13: `generate_prime(bits)` ends in an assertion failure, returning no value, if and only
if `bits <= 1`. -/
theorem generate_prime_assertion (fuel : Nat) (bits : Int) (sample : Nat → Int)
    (draw : Nat → Nat → Int) :
    generate_prime fuel bits sample draw = Outcome.assertion_failed ↔ bits ≤ 1 := by
  unfold generate_prime
  by_cases h : bits > 1
  · rw [if_pos h]
    constructor
    · intro h1
      exact absurd h1 (generate_prime_loop_no_assert bits sample draw fuel 0)
    · intro h1
      omega
  · rw [if_neg h]
    constructor
    · intro _
      omega
    · intro _
      rfl

/-- The table loop answers false on a number that is not in the table and is divisible by an
entry of it. -/
theorem baillie_sieve_false (num : Int) : ∀ l : List Int, num ∉ l →
    (∃ kp ∈ l, num.tmod kp = 0) → baillie_sieve num l = some false := by
  intro l
  induction l with
  | nil =>
    intro _ h
    obtain ⟨kp, hkp, _⟩ := h
    simp at hkp
  | cons q rest ih =>
    intro hnot h
    have hne : ¬ num = q := fun e => hnot (by simp [e])
    have hrest : num ∉ rest := fun e => hnot (List.mem_cons_of_mem _ e)
    rw [baillie_sieve]
    simp only [beq_iff_eq]
    rw [if_neg hne]
    by_cases hq : num.tmod q = 0
    · rw [if_pos hq]
    · rw [if_neg hq]
      apply ih hrest
      obtain ⟨kp, hkp, hdiv⟩ := h
      rcases List.mem_cons.mp hkp with e | e
      · subst e; exact absurd hdiv hq
      · exact ⟨kp, e, hdiv⟩

/-- The table loop answers true on every entry of the table. -/
theorem baillie_sieve_known : ∀ kp ∈ known_primes, baillie_sieve kp known_primes = some true := by
  decide

/-- C14: for every integer `num`, whatever the draws would be: if `num` is one of the table
primes `2, 3, 5, ..., 47` then `baillie_test(num)` returns true, and if `num` is not in the
table but is divisible by one of them (0 and negative multiples included) then
`baillie_test(num)` returns false. -/
theorem baillie_test_sieve_verdict (num : Int) (draw : Nat → Int) (rand : Nat → Int) :
    (num ∈ known_primes → baillie_test num draw rand = some true) ∧
      (num ∉ known_primes → (∃ kp ∈ known_primes, kp ∣ num) →
        baillie_test num draw rand = some false) := by
  constructor
  · intro h
    unfold baillie_test
    rw [baillie_sieve_known num h]
  · intro hnot h
    obtain ⟨kp, hkp, hdvd⟩ := h
    unfold baillie_test
    rw [baillie_sieve_false num known_primes hnot ⟨kp, hkp, Int.dvd_iff_tmod_eq_zero.mp hdvd⟩]

theorem baillie_test_sieve_verdict_witness :
    baillie_test 47 (fun _ => 2) (fun _ => 0) = some true ∧
      baillie_test (-94) (fun _ => 2) (fun _ => 0) = some false ∧
      baillie_test 0 (fun _ => 2) (fun _ => 0) = some false :=
  ⟨(baillie_test_sieve_verdict 47 (fun _ => 2) (fun _ => 0)).1 (by decide),
    (baillie_test_sieve_verdict (-94) (fun _ => 2) (fun _ => 0)).2 (by decide)
      ⟨47, by decide, ⟨-2, by decide⟩⟩,
    (baillie_test_sieve_verdict 0 (fun _ => 2) (fun _ => 0)).2 (by decide)
      ⟨2, by decide, ⟨0, by decide⟩⟩⟩

/-! ### The base of a Lucas trial -/

/-- C15, as stated, fails: for `n = 5` and the raw value `r = 2` the base is `4 = n - 1`, which
is not below `n - 1`. -/
theorem lucas_base_counterexample :
    (3 : Int) ≤ 5 ∧ (5 : Int) % 2 = 1 ∧ (0 : Int) ≤ 2 ∧ lucas_base 5 2 = 5 - 1 ∧
      ¬ (2 ≤ lucas_base 5 2 ∧ lucas_base 5 2 < 5 - 1) := by
  decide

/-- C15, amended: for every odd `n >= 3` and every raw random value `r >= 0`, the base
`a = r mod (n - 2) + 2` that `lucas_test` uses lies in the closed interval `[2, n - 1]`; the
upper end `n - 1` is taken, at `r = n - 3`. -/
theorem lucas_base_range (n r : Int) (hn : 3 ≤ n) (hodd : n % 2 = 1) (hr : 0 ≤ r) :
    2 ≤ lucas_base n r ∧ lucas_base n r ≤ n - 1 ∧ lucas_base n (n - 3) = n - 1 := by
  obtain ⟨h1, h2⟩ := lucas_base_bounds n r hn hr
  refine ⟨h1, h2, ?_⟩
  unfold lucas_base
  rw [Int.tmod_eq_emod (by omega) (by omega), Int.emod_eq_of_lt (by omega) (by omega)]
  ring

theorem lucas_base_range_witness :
    2 ≤ lucas_base 7 12 ∧ lucas_base 7 12 ≤ 7 - 1 ∧ lucas_base 7 (7 - 3) = 7 - 1 :=
  lucas_base_range 7 12 (by decide) (by decide) (by decide)

/-! ### The Lucas test on every integer -/

/-- On a negative number the inner loop of `prime_factors` for `i = 2` ends, appends copies of
2 only, at least one when the number is even, and leaves a negative residual. -/
theorem prime_factors_strip_neg : ∀ (fuel : Nat) (fs : List Int) (k : Int), 0 < k →
    k.toNat < fuel →
    ∃ (e : Nat) (k1 : Int), prime_factors_strip 2 fuel fs (-k)
        = some (fs ++ List.replicate e 2, -k1) ∧ 0 < k1 ∧ (k % 2 = 0 → 0 < e) := by
  intro fuel
  induction fuel with
  | zero => intro fs k _ hf; omega
  | succ f ih =>
    intro fs k hk hf
    have hmod : (-k).tmod 2 = -(k % 2) := by
      rw [neg_tmod, Int.tmod_eq_emod hk.le (by decide)]
    have hdiv : (-k).tdiv 2 = -(k / 2) := by
      rw [Int.neg_tdiv, Int.tdiv_eq_ediv hk.le (by decide)]
    rw [prime_factors_strip, hmod, hdiv]
    by_cases h : k % 2 = 0
    · obtain ⟨e, k1, h1, h2, _⟩ := ih (fs ++ [2]) (k / 2) (by omega) (by omega)
      refine ⟨e + 1, k1, ?_, h2, fun _ => by omega⟩
      have hc : ((-(k % 2) == 0) = true) := by simp [h]
      rw [if_pos hc, h1, List.replicate_succ, List.append_assoc]
      rfl
    · refine ⟨0, k, ?_, hk, fun h0 => absurd h0 h⟩
      have hc : ¬ ((-(k % 2) == 0) = true) := by
        simp only [beq_iff_eq]
        omega
      rw [if_neg hc]
      simp

/-- On a negative even number `prime_factors` returns a non-empty list of twos. -/
theorem prime_factors_neg_even (k : Int) (hk : 0 < k) (heven : k % 2 = 0) :
    ∃ e : Nat, prime_factors (-k) = some (2 :: List.replicate e 2) := by
  obtain ⟨e, k1, h1, h2, h3⟩ :=
    prime_factors_strip_neg ((-k).natAbs + 1) [] k hk (by omega)
  have he := h3 heven
  obtain ⟨e', rfl⟩ : ∃ e', e = e' + 1 := ⟨e - 1, by omega⟩
  refine ⟨e', ?_⟩
  unfold prime_factors
  rw [h1]
  simp only []
  rw [prime_factors_odd]
  have hc : ¬ ((3 : Int) * 3 ≤ -k1) := by omega
  rw [if_neg hc]
  simp only []
  rw [if_neg (by omega)]
  rfl

/-- The trial loop of `lucas_test` answers false when no base keeps the flag. -/
theorem lucas_trials_no_flag (n : Int) (fs : List Int) (rand : Nat → Int)
    (h : ∀ a, lucas_flag a n fs = false) :
    ∀ (remaining i : Nat), lucas_trials n fs rand remaining i = false := by
  intro remaining
  induction remaining with
  | zero => intro i; rfl
  | succ k ih =>
    intro i
    rw [lucas_trials]
    simp only [h, Bool.false_eq_true, if_false, ih]
    split <;> rfl

/-- On every negative number `lucas_test` returns false. -/
theorem lucas_test_neg (n : Int) (hn : n < 0) (rand : Nat → Int) :
    lucas_test n rand = some false := by
  unfold lucas_test
  have h1 : ¬ ((n == 1) = true) := by simp only [beq_iff_eq]; omega
  have h2 : ¬ ((n == 2) = true) := by simp only [beq_iff_eq]; omega
  rw [if_neg h1, if_neg h2]
  have hmod : n.tmod 2 = -((-n) % 2) := by
    have : n = -(-n) := by ring
    rw [this, neg_tmod, Int.tmod_eq_emod (by omega) (by decide), neg_neg]
  by_cases h3 : (-n) % 2 = 0
  · have hc : ((n.tmod 2 == 0) = true) := by simp [hmod, h3]
    rw [if_pos hc]
  · have hc : ¬ ((n.tmod 2 == 0) = true) := by
      simp only [beq_iff_eq, hmod]
      omega
    rw [if_neg hc]
    have e : n - 1 = -(1 - n) := by ring
    obtain ⟨c, hfs⟩ := prime_factors_neg_even (1 - n) (by omega) (by omega)
    rw [e, hfs]
    simp only []
    rw [lucas_trials_no_flag]
    intro a
    rw [lucas_flag]
    have hexp : (n - 1).tdiv 2 ≤ 0 := by
      rw [e, Int.neg_tdiv, Int.tdiv_eq_ediv (by omega) (by decide)]
      omega
    have hpow : mod_pow a ((n - 1).tdiv 2) n = 1 := by
      rw [mod_pow_eq, if_neg (by omega)]
    simp [hpow]

/-- C17: `lucas_test` is a primality proof: for every integer `n` and every sequence of values
of `rand()`, if `lucas_test(n)` returns true then `n` is prime; and it returns false for every
`n <= 1`. -/
theorem lucas_test_certifies (n : Int) (rand : Nat → Int) (hrand : ∀ j, 0 ≤ rand j) :
    (lucas_test n rand = some true → ∃ p : Nat, p.Prime ∧ n = (p : Int)) ∧
      (n ≤ 1 → lucas_test n rand = some false) := by
  constructor
  · intro h
    rcases lt_or_le n 0 with hneg | hpos
    · rw [lucas_test_neg n hneg rand] at h
      simp at h
    · obtain ⟨m, rfl⟩ := Int.eq_ofNat_of_zero_le hpos
      exact ⟨m, lucas_test_sound m rand hrand h, rfl⟩
  · intro h
    rcases lt_or_le n 0 with hneg | hpos
    · exact lucas_test_neg n hneg rand
    · have h01 : n = 0 ∨ n = 1 := by omega
      rcases h01 with rfl | rfl
      · simp [lucas_test]
      · simp [lucas_test]

theorem lucas_test_certifies_witness : ∃ p : Nat, p.Prime ∧ (53 : Int) = (p : Int) :=
  (lucas_test_certifies 53 (fun _ => 0) (fun _ => le_rfl)).1 (by decide)

/-- Under a modulus of at most 3037000500 the 64-bit flag loop is the exact one. -/
theorem lucas_flag64_eq (a n : Int) (hn0 : 0 < n) (hn : n ≤ 3037000500) :
    ∀ fs : List Int, lucas_flag64 a n fs = lucas_flag a n fs := by
  intro fs
  induction fs with
  | nil => rfl
  | cons f rest ih => rw [lucas_flag64, lucas_flag, mod_pow64_eq _ _ n hn0 hn, ih]

/-- Under a modulus of at most 3037000500 the 64-bit trial loop is the exact one. -/
theorem lucas_trials64_eq (n : Int) (hn0 : 0 < n) (hn : n ≤ 3037000500) (fs : List Int)
    (rand : Nat → Int) :
    ∀ (remaining i : Nat),
      lucas_trials64 n fs rand remaining i = lucas_trials n fs rand remaining i := by
  intro remaining
  induction remaining with
  | zero => intro i; rfl
  | succ k ih =>
    intro i
    rw [lucas_trials64, lucas_trials, mod_pow64_eq _ _ n hn0 hn, lucas_flag64_eq _ n hn0 hn, ih]

/-- On a positive `n` of at most 3037000500 the 64-bit `lucas_test` is the exact one. -/
theorem lucas_test64_eq (n : Int) (hn0 : 0 < n) (hn : n ≤ 3037000500) (rand : Nat → Int) :
    lucas_test64 n rand = lucas_test n rand := by
  unfold lucas_test64 lucas_test
  cases prime_factors (n - 1) with
  | none => rfl
  | some fs =>
    simp only []
    rw [lucas_trials64_eq n hn0 hn]

set_option maxRecDepth 100000 in
/-- The exact model of `lucas_test` accepts 4294967311 on the base 3. -/
theorem lucas_test_exact_4294967311 :
    lucas_test ((4294967311 : Nat) : Int) (fun _ => 1) = some true := by
  decide

set_option maxRecDepth 100000 in
/-- In 64-bit arithmetic `mod_pow(3, 4294967310, 4294967311)` overflows and `lucas_test`
rejects 4294967311 on the base 3. -/
theorem lucas_test64_4294967311 :
    mod_pow64 3 (4294967311 - 1) 4294967311 = 1079725232 ∧
      lucas_test64 4294967311 (fun _ => 1) = some false := by
  decide

/-- C18, as stated, fails: 4294967311 is an odd prime and the drawn base 3 is a primitive root
modulo it, yet in 64-bit arithmetic the product `base * base` of `mod_pow` overflows,
`mod_pow(3, n - 1, n)` is 1079725232 instead of 1, the first trial takes the Fermat-failure
branch and `lucas_test` returns false. -/
theorem lucas_test_overflow_counterexample :
    Nat.Prime 4294967311 ∧ 4294967311 ≠ 2 ∧ lucas_base 4294967311 1 = 3 ∧
      orderOf (((3 : Int)) : ZMod 4294967311) = 4294967311 - 1 ∧
      mod_pow64 3 (4294967311 - 1) 4294967311 = 1079725232 ∧
      lucas_test64 4294967311 (fun _ => 1) = some false := by
  have hexact := lucas_test_exact_4294967311
  have hprime : Nat.Prime 4294967311 :=
    lucas_test_sound 4294967311 (fun _ => 1) (fun _ => zero_le_one) hexact
  have hbase : lucas_base ((4294967311 : Nat) : Int) 1 = 3 := by decide
  obtain ⟨b, hb1, hb2⟩ :=
    lucas_test_odd_prime 4294967311 hprime (by decide) (fun _ => 1) (fun _ => zero_le_one)
  rw [hexact] at hb1
  have hb : b = true := (Option.some.inj hb1).symm
  obtain ⟨j, _, hj⟩ := hb2.mp hb
  rw [hbase] at hj
  exact ⟨hprime, by decide, by decide, hj, lucas_test64_4294967311.1,
    lucas_test64_4294967311.2⟩

/-- C18, amended: for every odd prime `n <= 3037000500`, the bound under which no product of
`mod_pow` overflows 64 bits, and every sequence of values of `rand()`, no trial of
`lucas_test(n)` takes the Fermat-failure branch, and `lucas_test(n)` returns true if and only
if at least one of its ten drawn bases is a primitive root modulo `n`, and false if and only if
none of the ten is. -/
theorem lucas_test_primitive_root (n : Nat) (hn : n.Prime) (hodd : n ≠ 2)
    (hsmall : n ≤ 3037000500) (rand : Nat → Int) (hrand : ∀ j, 0 ≤ rand j) :
    (∀ j, mod_pow64 (lucas_base n (rand j)) ((n : Int) - 1) n = 1) ∧
      (lucas_test64 n rand = some true ↔
        ∃ j, j < 10 ∧ orderOf ((lucas_base n (rand j) : Int) : ZMod n) = n - 1) ∧
      (lucas_test64 n rand = some false ↔
        ∀ j, j < 10 → orderOf ((lucas_base n (rand j) : Int) : ZMod n) ≠ n - 1) := by
  have hn3 : 3 ≤ n := by
    have := hn.two_le
    omega
  have hn0 : (0 : Int) < n := by omega
  have hnI : (n : Int) ≤ 3037000500 := by exact_mod_cast hsmall
  obtain ⟨b, hb1, hb2⟩ := lucas_test_odd_prime n hn hn3 rand hrand
  rw [lucas_test64_eq n hn0 hnI]
  refine ⟨fun j => ?_, ?_, ?_⟩
  · rw [mod_pow64_eq _ _ n hn0 hnI]
    exact lucas_fermat_prime n hn hn3 _ (hrand j)
  · rw [hb1]
    simp only [Option.some.injEq]
    exact hb2
  · rw [hb1]
    cases b with
    | false =>
      simp only [true_iff]
      intro j hj hord
      exact absurd (hb2.mpr ⟨j, hj, hord⟩) (by simp)
    | true =>
      simp only [Option.some.injEq, Bool.true_eq_false, false_iff, not_forall]
      obtain ⟨j, hj, hord⟩ := hb2.mp rfl
      exact ⟨j, hj, fun h => h hord⟩

theorem lucas_test_primitive_root_witness :
    (∀ j : Nat, mod_pow64 (lucas_base (53 : Nat) ((fun _ : Nat => (0 : Int)) j))
        (((53 : Nat) : Int) - 1) (53 : Nat) = 1) ∧
      (lucas_test64 (53 : Nat) (fun _ => 0) = some true ↔
        ∃ j : Nat, j < 10 ∧
          orderOf ((lucas_base (53 : Nat) ((fun _ : Nat => (0 : Int)) j) : Int) : ZMod 53)
            = 53 - 1) ∧
      (lucas_test64 (53 : Nat) (fun _ => 0) = some false ↔
        ∀ j : Nat, j < 10 →
          orderOf ((lucas_base (53 : Nat) ((fun _ : Nat => (0 : Int)) j) : Int) : ZMod 53)
            ≠ 53 - 1) :=
  lucas_test_primitive_root 53 (by norm_num) (by decide) (by decide) (fun _ => 0)
    (fun _ => le_rfl)

/-! ### The witness interval and the squaring loop of `millerTest` -/

/-- C19: evaluation of the witness interval. `isPrimeRM(5, k)` passes both early returns and
runs its trials, but the interval `[2, n - 4]` handed to the distribution is `[2, 1]`, which is
empty; from `n = 6` on the interval is non-empty. -/
theorem millerTest_interval_five :
    (∀ (k : Int) (draw : Nat → Int), isPrimeRM 5 k draw = isPrimeRM_trials_of 5 k draw) ∧
      (millerTest_interval 5).2 < (millerTest_interval 5).1 ∧
      ∀ n : Int, 6 ≤ n → (millerTest_interval n).1 ≤ (millerTest_interval n).2 := by
  refine ⟨fun k draw => isPrimeRM_eq_trials 5 k draw (by decide), by decide, ?_⟩
  intro n hn
  unfold millerTest_interval
  simp only []
  omega

/-- The recorded run of the squaring loop: when `d * 2 ^ r = n - 1` and more than `r`
iterations are allowed, the loop ends with the verdict of `millerTest_loop`, after at most `r`
executions of its body, and `d` stays at most `n - 1`. -/
theorem millerTest_loop_run_spec : ∀ (r fuel : Nat) (x d n : Int), 0 < d →
    d * 2 ^ r = n - 1 → r < fuel →
    ∃ (verdict : Bool) (ds : List Int), millerTest_loop_run fuel x d n = some (verdict, ds) ∧
      millerTest_loop fuel x d n = some verdict ∧ ds.length ≤ r ∧ ∀ d1 ∈ ds, d1 ≤ n - 1 := by
  intro r
  induction r with
  | zero =>
    intro fuel x d n hd hr hf
    obtain ⟨f, rfl⟩ : ∃ f, fuel = f + 1 := ⟨fuel - 1, by omega⟩
    have hdn : d = n - 1 := by simpa using hr
    refine ⟨false, [], ?_, ?_, le_rfl, by simp⟩
    · simp [millerTest_loop_run, hdn]
    · simp [millerTest_loop, hdn]
  | succ r ih =>
    intro fuel x d n hd hr hf
    obtain ⟨f, rfl⟩ : ∃ f, fuel = f + 1 := ⟨fuel - 1, by omega⟩
    have hpos : (0 : Int) < 2 ^ r := by positivity
    have hd2 : d * 2 ≤ n - 1 := by
      rw [← hr, pow_succ]
      nlinarith
    have hne : d ≠ n - 1 := by omega
    rw [millerTest_loop_run, millerTest_loop]
    simp only [bne_iff_ne, ne_eq, hne, not_false_eq_true, if_true, beq_iff_eq]
    by_cases h1 : (x * x).tmod n = 1
    · rw [if_pos h1, if_pos h1]
      exact ⟨false, [d * 2], rfl, rfl, by simp, by simpa using hd2⟩
    · rw [if_neg h1, if_neg h1]
      by_cases h2 : (x * x).tmod n = n - 1
      · rw [if_pos h2, if_pos h2]
        exact ⟨true, [d * 2], rfl, rfl, by simp, by simpa using hd2⟩
      · rw [if_neg h2, if_neg h2]
        obtain ⟨verdict, ds, e1, e2, e3, e4⟩ := ih f ((x * x).tmod n) (d * 2) n (by omega)
          (by rw [← hr, pow_succ]; ring) (by omega)
        refine ⟨verdict, d * 2 :: ds, ?_, e2, by simpa using e3, ?_⟩
        · rw [e1]
        · intro d1 hd1
          rcases List.mem_cons.mp hd1 with e | e
          · rw [e]; exact hd2
          · exact e4 d1 e

/-- C20: for every `n >= 5`, with `d` the odd number that `isPrimeRM` computes by halving
`n - 1`, so that `n - 1 = d * 2^s`, the loop `while (d != n - 1)` of `millerTest(d, n)` ends
after at most `s` executions of its body from every state `x`, hence for every witness, and `d`
never exceeds `n - 1` during it. -/
theorem millerTest_loop_bounded (n : Int) (hn : 5 ≤ n) :
    ∃ (d : Int) (s : Nat), isPrimeRM_halve (n - 1).toNat (n - 1) = some d ∧ d % 2 = 1 ∧
      n - 1 = d * 2 ^ s ∧
      ∀ x : Int, ∃ (verdict : Bool) (ds : List Int),
        millerTest_loop_run n.toNat x d n = some (verdict, ds) ∧
          millerTest_loop n.toNat x d n = some verdict ∧ ds.length ≤ s ∧
          ∀ d1 ∈ ds, d1 ≤ n - 1 := by
  obtain ⟨d, s, h1, h2, h3, h4⟩ :=
    isPrimeRM_halve_spec (n - 1).toNat (n - 1) (by omega) le_rfl
  exact ⟨d, s, h1, h4, h2, fun x =>
    millerTest_loop_run_spec s n.toNat x d n h3 h2.symm (pow_two_le_lt h3 h2.symm)⟩

theorem millerTest_loop_bounded_witness :
    ∃ (d : Int) (s : Nat), isPrimeRM_halve ((561 : Int) - 1).toNat (561 - 1) = some d ∧
      d % 2 = 1 ∧ (561 : Int) - 1 = d * 2 ^ s ∧
      ∀ x : Int, ∃ (verdict : Bool) (ds : List Int),
        millerTest_loop_run (561 : Int).toNat x d 561 = some (verdict, ds) ∧
          millerTest_loop (561 : Int).toNat x d 561 = some verdict ∧ ds.length ≤ s ∧
          ∀ d1 ∈ ds, d1 ≤ (561 : Int) - 1 :=
  millerTest_loop_bounded 561 (by decide)

/-! ### The Carmichael number 561 -/

set_option maxRecDepth 100000 in
/-- The table `strong_liars_561` agrees with the code on every witness of `[2, 557]`. -/
theorem liars_561_table : liars_561_ok = true := by
  decide

/-- One trial on 561 accepts exactly the listed strong liars. -/
theorem millerTest_561 (a : Int) (h1 : 2 ≤ a) (h2 : a ≤ 557) :
    millerTest 561 a 35 561 = some (strong_liars_561.contains a) := by
  have h := liars_561_table
  unfold liars_561_ok at h
  rw [List.all_eq_true] at h
  have h3 := h (a - 2).toNat (by rw [List.mem_range]; omega)
  have e : (((a - 2).toNat : Nat) : Int) + 2 = a := by omega
  rw [e] at h3
  simpa using h3

/-- Five trials on 561 all pass exactly when the five witnesses are strong liars. -/
theorem isPrimeRM_561 (draw : Nat → Int) (hdraw : ∀ i, i < 5 → 2 ≤ draw i ∧ draw i ≤ 557) :
    isPrimeRM 561 5 draw = some true ↔ ∀ i, i < 5 → draw i ∈ strong_liars_561 := by
  rw [isPrimeRM_eq_trials 561 5 draw (by decide)]
  unfold isPrimeRM_trials_of
  have hd : isPrimeRM_halve ((561 : Int) - 1).toNat (561 - 1) = some 35 := by decide
  rw [hd]
  obtain ⟨b, hb1, hb2⟩ := isPrimeRM_trials_spec 35 561 draw
    (fun a => strong_liars_561.contains a) (5 : Int).toNat 0
    (fun j _ hj => millerTest_561 _ (hdraw j (by simpa using hj)).1
      (hdraw j (by simpa using hj)).2)
  simp only []
  rw [hb1]
  simp only [Option.some.injEq]
  rw [hb2]
  constructor
  · intro h i hi
    simpa using h i (Nat.zero_le _) (by simpa using hi)
  · intro h j _ hj
    simpa using h j (by simpa using hj)

/-- The witnesses of `[2, 557]` accepted by one trial on 561 are the eight listed ones. -/
theorem liars_561_finset :
    (Finset.Icc (2 : Int) 557).filter (fun a => millerTest 561 a 35 561 = some true)
      = strong_liars_561.toFinset := by
  ext a
  simp only [Finset.mem_filter, Finset.mem_Icc, List.mem_toFinset]
  constructor
  · rintro ⟨⟨h1, h2⟩, h3⟩
    rw [millerTest_561 a h1 h2] at h3
    simpa using h3
  · intro h
    have hr : 2 ≤ a ∧ a ≤ 557 := by
      have hall : ∀ b ∈ strong_liars_561, 2 ≤ b ∧ b ≤ 557 := by decide
      exact hall a h
    refine ⟨hr, ?_⟩
    rw [millerTest_561 a hr.1 hr.2]
    simpa using h

/-- The tuples of five witnesses of `[2, 557]` on which `isPrimeRM(561, 5)` answers true are
the tuples of five strong liars. -/
theorem liars_561_tuples :
    (Fintype.piFinset (fun _ : Fin 5 => Finset.Icc (2 : Int) 557)).filter
        (fun t => isPrimeRM 561 5 (tuple_draw t) = some true)
      = Fintype.piFinset (fun _ : Fin 5 => strong_liars_561.toFinset) := by
  ext t
  simp only [Finset.mem_filter, Fintype.mem_piFinset, Finset.mem_Icc, List.mem_toFinset]
  have hdraw : ∀ (i : Nat) (h : i < 5), tuple_draw t i = t ⟨i, h⟩ := by
    intro i h
    unfold tuple_draw
    rw [dif_pos h]
  have hall : ∀ b ∈ strong_liars_561, 2 ≤ b ∧ b ≤ 557 := by decide
  constructor
  · rintro ⟨h1, h2⟩ i
    have hr : ∀ j, j < 5 → 2 ≤ tuple_draw t j ∧ tuple_draw t j ≤ 557 := by
      intro j hj
      rw [hdraw j hj]
      exact h1 ⟨j, hj⟩
    have := (isPrimeRM_561 (tuple_draw t) hr).mp h2 i.1 i.2
    rw [hdraw i.1 i.2] at this
    exact this
  · intro h
    have hr : ∀ j, j < 5 → 2 ≤ tuple_draw t j ∧ tuple_draw t j ≤ 557 := by
      intro j hj
      rw [hdraw j hj]
      exact hall _ (h ⟨j, hj⟩)
    refine ⟨fun i => hall _ (h i), (isPrimeRM_561 (tuple_draw t) hr).mpr ?_⟩
    intro j hj
    rw [hdraw j hj]
    exact h ⟨j, hj⟩

/-- C16: Miller-Rabin detects the Carmichael number 561 with probability at least 3/4 per
trial: with `d = 35`, the odd part of 560, `millerTest(35, 561)` returns true for 8 of the 556
witnesses of `[2, 557]`, at most one quarter of them, and the five trials of
`isPrimeRM(561, 5)` all pass for `8^5` of the `556^5` tuples of witnesses, at most a `4^-5`
fraction of them. -/
theorem isPrimeRM_561_liar_fraction :
    isPrimeRM_halve ((561 : Int) - 1).toNat (561 - 1) = some 35 ∧
    ((Finset.Icc (2 : Int) 557).filter (fun a => millerTest 561 a 35 561 = some true)).card
      = 8 ∧
    (Finset.Icc (2 : Int) 557).card = 556 ∧
    ((Finset.Icc (2 : Int) 557).filter (fun a => millerTest 561 a 35 561 = some true)).card * 4
      ≤ (Finset.Icc (2 : Int) 557).card ∧
    ((Fintype.piFinset (fun _ : Fin 5 => Finset.Icc (2 : Int) 557)).filter
        (fun t => isPrimeRM 561 5 (tuple_draw t) = some true)).card = 8 ^ 5 ∧
    (Fintype.piFinset (fun _ : Fin 5 => Finset.Icc (2 : Int) 557)).card = 556 ^ 5 ∧
    ((Fintype.piFinset (fun _ : Fin 5 => Finset.Icc (2 : Int) 557)).filter
        (fun t => isPrimeRM 561 5 (tuple_draw t) = some true)).card * 4 ^ 5
      ≤ (Fintype.piFinset (fun _ : Fin 5 => Finset.Icc (2 : Int) 557)).card := by
  have hliars : strong_liars_561.toFinset.card = 8 := by decide
  have hIcc : (Finset.Icc (2 : Int) 557).card = 556 := by
    rw [Int.card_Icc]
    decide
  have h1 : ((Finset.Icc (2 : Int) 557).filter
      (fun a => millerTest 561 a 35 561 = some true)).card = 8 := by
    rw [liars_561_finset, hliars]
  have h2 : ((Fintype.piFinset (fun _ : Fin 5 => Finset.Icc (2 : Int) 557)).filter
      (fun t => isPrimeRM 561 5 (tuple_draw t) = some true)).card = 8 ^ 5 := by
    rw [liars_561_tuples, Fintype.card_piFinset, Finset.prod_const, hliars, Finset.card_univ,
      Fintype.card_fin]
  have h3 : (Fintype.piFinset (fun _ : Fin 5 => Finset.Icc (2 : Int) 557)).card = 556 ^ 5 := by
    rw [Fintype.card_piFinset, Finset.prod_const, hIcc, Finset.card_univ, Fintype.card_fin]
  refine ⟨by decide, h1, hIcc, ?_, h2, h3, ?_⟩
  · rw [h1, hIcc]
    decide
  · rw [h2, h3]
    norm_num

end CryptoLab1
